import Mathlib

/-!
Verification development for the mbox-sender-analyzer engine.

The development shallowly embeds the streaming aggregation core
(`MboxProcessor` in `mboxParser.ts`), the overflow store merge
(`IndexedDBStorage` in `indexedDBStorage.ts`) and the filtering and
subdomain-consolidation pass (`App.filteredGroups` in `App.tsx`).

Modelling conventions:
* JavaScript `Map`s and plain-object records are insertion-ordered
  association lists (`List (String × α)`); `lookupK` is `Map.get` /
  property access, `setK` is `Map.set` / property assignment (an
  existing key keeps its position, a new key is appended, exactly the
  JavaScript ordering semantics).
* `Date` values are their epoch-millisecond integers (`Int`), absent
  ones `Option.none`.  A live `Date` object is always truthy in JS, a
  serialized epoch number is falsy exactly when it is `0`; `tsTruthy`
  models the latter.
* String manipulation is re-implemented over `List Char` because the
  built-in `String` routines do not reduce inside the kernel; JS
  whitespace is modelled by its ASCII part (`jsWs`), and `Char.toLower`
  models `String.prototype.toLowerCase` (ASCII range).
* `Date:` header parsing (`new Date(string)`) is host-defined, so the
  whole scanner is parameterized by a date parser
  `parseDate : String → Option Int`; an unparseable date (NaN check in
  the source) is `none`.
-/

namespace Mbox

/-! ## Association-list primitives (JS `Map` / record semantics) -/

/-- `Map.get` / record field access: first entry with the key. -/
def lookupK {α : Type} : List (String × α) → String → Option α
  | [], _ => none
  | (k, v) :: t, q => if k = q then some v else lookupK t q

/-- `Map.set` / record field assignment: replace in place, else append. -/
def setK {α : Type} : List (String × α) → String → α → List (String × α)
  | [], q, v => [(q, v)]
  | (k, w) :: t, q, v => if k = q then (q, v) :: t else (k, w) :: setK t q v

/-- `for (const [k, v] of batch) m.set(k, f(m.get(k), v))` — the shared
shape of every merge loop in the source. -/
def foldMerge {α : Type} (m batch : List (String × α)) (f : Option α → α → α) :
    List (String × α) :=
  batch.foldl (fun acc kv => setK acc kv.1 (f (lookupK acc kv.1) kv.2)) m

/-- Keys of an association list. -/
def keysOf {α : Type} (m : List (String × α)) : List String := m.map Prod.fst

/-- Stable insertion step for a descending sort by a `Nat` key:
the new element goes before the first strictly smaller entry. -/
def insertByDesc {α : Type} (key : α → Nat) (x : α) : List α → List α
  | [] => [x]
  | y :: t => if key x < key y then y :: insertByDesc key x t else x :: y :: t

/-- Stable descending sort, modelling `Array.prototype.sort` with the
comparator `(a, b) => key(b) - key(a)` (stable per the JS spec). -/
def sortByDesc {α : Type} (key : α → Nat) : List α → List α
  | [] => []
  | x :: t => insertByDesc key x (sortByDesc key t)

/-! ## Character/string primitives (kernel-computable) -/

/-- The ASCII part of the JS `\s` character class. -/
def jsWs (c : Char) : Bool :=
  c = ' ' ∨ c = '\t' ∨ c = '\n' ∨ c = '\r' ∨ c = '\x0b' ∨ c = '\x0c'

/-- `needle` is a prefix of `hay` (char lists). -/
def chStarts : List Char → List Char → Bool
  | [], _ => true
  | _ :: _, [] => false
  | a :: as, b :: bs => a = b && chStarts as bs

/-- `hay.includes(needle)` over char lists. -/
def chContains (needle : List Char) : List Char → Bool
  | [] => needle.isEmpty
  | c :: t => chStarts needle (c :: t) || chContains needle t

/-- `String.prototype.includes`. -/
def strIncludes (hay needle : String) : Bool := chContains needle.data hay.data

/-- `String.prototype.startsWith`. -/
def strStarts (s pre : String) : Bool := chStarts pre.data s.data

/-- `trimEnd()` restricted to the modelled whitespace class. -/
def chTrimEnd (cs : List Char) : List Char := ((cs.reverse).dropWhile jsWs).reverse

/-- `trim()` restricted to the modelled whitespace class. -/
def chTrim (cs : List Char) : List Char := chTrimEnd (cs.dropWhile jsWs)

def strTrim (s : String) : String := String.mk (chTrim s.data)

def strTrimEnd (s : String) : String := String.mk (chTrimEnd s.data)

/-- `s.slice(n)` for an ASCII prefix of known length. -/
def strDropN (s : String) (n : Nat) : String := String.mk (s.data.drop n)

def strToLower (s : String) : String := String.mk (s.data.map Char.toLower)

/-! ## Data model (`constants.ts`, `mboxParser.ts`) -/

/-- `PERSONAL_DOMAINS` from `constants.ts`. -/
def PERSONAL_DOMAINS : List String :=
  ["gmail.com", "googlemail.com", "outlook.com", "hotmail.com", "live.com",
   "yahoo.com", "yahoo.co.uk", "icloud.com", "me.com", "mac.com", "aol.com",
   "protonmail.com", "proton.me", "yandex.com", "mail.com", "zoho.com",
   "gmx.com", "gmx.de"]

/-- Per-sender record `{ count, earliestDate?, latestDate? }`. -/
structure SenderData where
  count : Nat
  earliestDate : Option Int := none
  latestDate : Option Int := none
deriving DecidableEq, Repr

/-- `DomainData` from `mboxParser.ts` / `indexedDBStorage.ts`.  The stored
(IndexedDB) form is field-wise identical once dates are epoch integers,
so the same structure models both (serialization `getTime()` is the
identity here; deserialization is `loadTs` below). -/
structure DomainData where
  totalCount : Nat
  senders : List (String × SenderData)
  isPersonal : Bool
  earliestDate : Option Int := none
  latestDate : Option Int := none
deriving DecidableEq, Repr

/-- A `Map<string, DomainData>` — a partial aggregate, the in-memory
accumulator, or the overflow store contents. -/
abbrev DomainMap := List (String × DomainData)

/-! ## In-memory merge (`MboxProcessor.mergeResults`, `addRecord` dates) -/

/-- `if (b) { if (!a || b < a) a = b }` on `Date` values (always-truthy
objects): the earliest-seen update used by `addRecord`/`mergeResults`. -/
def memEarliest (a b : Option Int) : Option Int :=
  match b with
  | none => a
  | some bv =>
    match a with
    | none => some bv
    | some av => if bv < av then some bv else some av

/-- `if (b) { if (!a || b > a) a = b }` on `Date` values. -/
def memLatest (a b : Option Int) : Option Int :=
  match b with
  | none => a
  | some bv =>
    match a with
    | none => some bv
    | some av => if av < bv then some bv else some av

/-- Body of the sender loop in `mergeResults`: missing senders start from
`{ count: 0 }`, counts add, date bounds widen. -/
def mergeSenderInto (acc : Option SenderData) (b : SenderData) : SenderData :=
  let a := acc.getD { count := 0 }
  { count := a.count + b.count
    earliestDate := memEarliest a.earliestDate b.earliestDate
    latestDate := memLatest a.latestDate b.latestDate }

/-- Body of the domain loop in `mergeResults`: a missing domain starts
from `{ totalCount: 0, senders: new Map(), isPersonal: batch.isPersonal }`
(no date bounds), then senders are merged, counts added, bounds widened. -/
def mergeDomainInto (acc : Option DomainData) (b : DomainData) : DomainData :=
  let a := acc.getD { totalCount := 0, senders := [], isPersonal := b.isPersonal }
  { totalCount := a.totalCount + b.totalCount
    senders := foldMerge a.senders b.senders mergeSenderInto
    isPersonal := a.isPersonal
    earliestDate := memEarliest a.earliestDate b.earliestDate
    latestDate := memLatest a.latestDate b.latestDate }

/-- `MboxProcessor.mergeResults(accumulated, batch)` (the source mutates
`accumulated` in place; the model returns the updated map). -/
def mergeResults (accumulated batch : DomainMap) : DomainMap :=
  foldMerge accumulated batch mergeDomainInto

/-! ## Overflow store merge (`IndexedDBStorage.flush` / `loadAll`) -/

/-- JS truthiness of a serialized timestamp: `undefined` and `0` are
falsy, every other number truthy (`NaN` is unreachable: the parser
filters it). -/
def tsTruthy : Option Int → Bool
  | none => false
  | some t => decide (t ≠ 0)

/-- JS `a || b` on serialized timestamps. -/
def jsOrTs (a b : Option Int) : Option Int := if tsTruthy a then a else b

/-- `if (inc && (!ex || inc < ex)) ex = inc` on serialized numbers — the
per-sender earliest-date update inside `flush`.  `inc` is falsy when
absent or `0`; the comparison only runs when `ex` is truthy. -/
def storeSenderEarliest (ex inc : Option Int) : Option Int :=
  match inc with
  | none => ex
  | some i =>
    if i = 0 then ex
    else
      match ex with
      | none => some i
      | some e => if e = 0 then some i else if i < e then some i else ex

/-- `if (inc && (!ex || inc > ex)) ex = inc` on serialized numbers. -/
def storeSenderLatest (ex inc : Option Int) : Option Int :=
  match inc with
  | none => ex
  | some i =>
    if i = 0 then ex
    else
      match ex with
      | none => some i
      | some e => if e = 0 then some i else if e < i then some i else ex

/-- `ex && inc ? Math.min(ex, inc) : (ex || inc)` — the domain-level
earliest-date rule inside `flush`. -/
def storeDomEarliest (ex inc : Option Int) : Option Int :=
  match ex, inc with
  | some e, some i => if e ≠ 0 ∧ i ≠ 0 then some (min e i) else jsOrTs ex inc
  | _, _ => jsOrTs ex inc

/-- `ex && inc ? Math.max(ex, inc) : (ex || inc)`. -/
def storeDomLatest (ex inc : Option Int) : Option Int :=
  match ex, inc with
  | some e, some i => if e ≠ 0 ∧ i ≠ 0 then some (max e i) else jsOrTs ex inc
  | _, _ => jsOrTs ex inc

/-- Sender merge inside `flush`: an absent sender is copied verbatim
(`mergedSenders[email] = senderData`), a present one gets count sum and
truthiness-guarded date updates. -/
def storeMergeSender (ex : Option SenderData) (inc : SenderData) : SenderData :=
  match ex with
  | none => inc
  | some e =>
    { count := e.count + inc.count
      earliestDate := storeSenderEarliest e.earliestDate inc.earliestDate
      latestDate := storeSenderLatest e.latestDate inc.latestDate }

/-- Per-domain merge-on-write in `flush`: absent key stores the incoming
record verbatim; a present one merges senders, adds counts, applies the
truthiness-guarded date rules, and takes `isPersonal` from the incoming
record. -/
def storeMergeDomain (ex : Option DomainData) (item : DomainData) : DomainData :=
  match ex with
  | none => item
  | some e =>
    { totalCount := e.totalCount + item.totalCount
      senders := foldMerge e.senders item.senders storeMergeSender
      isPersonal := item.isPersonal
      earliestDate := storeDomEarliest e.earliestDate item.earliestDate
      latestDate := storeDomLatest e.latestDate item.latestDate }

/-- `IndexedDBStorage.flush(domains)`: read-modify-write every domain of
the batch into the store.  The source slices the batch into sub-batches
of 100 for memory reasons; the per-key effect is identical because each
key occurs once per flushed `Map`, so the model applies them in one
pass. -/
def flush (store batch : DomainMap) : DomainMap :=
  foldMerge store batch storeMergeDomain

/-- `data.ts ? new Date(data.ts) : undefined` in `loadAll`: a serialized
epoch `0` deserializes to `undefined`. -/
def loadTs : Option Int → Option Int
  | none => none
  | some t => if t = 0 then none else some t

def loadSender (s : SenderData) : SenderData :=
  { count := s.count
    earliestDate := loadTs s.earliestDate
    latestDate := loadTs s.latestDate }

def loadDomain (d : DomainData) : DomainData :=
  { totalCount := d.totalCount
    senders := d.senders.map (fun kv => (kv.1, loadSender kv.2))
    isPersonal := d.isPersonal
    earliestDate := loadTs d.earliestDate
    latestDate := loadTs d.latestDate }

/-- `IndexedDBStorage.loadAll()`.  (IndexedDB enumerates records in key
order; no theorem below depends on the enumeration order, so the model
keeps insertion order.) -/
def loadAll (store : DomainMap) : DomainMap :=
  store.map (fun kv => (kv.1, loadDomain kv.2))

/-! ## Message scanner (`MboxProcessor.processLine`) -/

def isQuoteChar (c : Char) : Bool := c = '"' ∨ c = Char.ofNat 39

/-- `fromValue.replace(/^["']|["']$/g, "")`: the global regex removes at
most one leading and at most one trailing quote character. -/
def stripQuotes (s : List Char) : List Char :=
  let s1 := match s with
    | c :: t => if isQuoteChar c then t else c :: t
    | [] => []
  match s1.getLast? with
  | some c => if isQuoteChar c then s1.dropLast else s1
  | none => s1

/-- `fromValue.match(/<([^>]+)>/)`: the leftmost `<`…`>` pair whose body
is non-empty; a failed attempt at one `<` resumes scanning right after
it, like the regex engine. -/
def findAngle : List Char → Option (List Char)
  | [] => none
  | c :: rest =>
    if c = '<' then
      let inner := rest.takeWhile (fun d => ¬(d = '>'))
      let rem := rest.drop inner.length
      if inner.isEmpty || rem.isEmpty then findAngle rest else some inner
    else findAngle rest

/-- Address extraction from the (trimmed) `From:` header value: prefer an
angle-bracket address, else the value with surrounding quotes stripped;
both re-trimmed. -/
def parseFromValue (fromValue : String) : String :=
  match findAngle fromValue.data with
  | some inner => strTrim (String.mk inner)
  | none => strTrim (String.mk (stripQuotes fromValue.data))

/-- `email.match(/@([^\s>]+)/)`: the first `@` that is followed by at
least one character that is neither whitespace nor `>`, capturing the
maximal run of such characters.  An `@` with no valid follower lets the
regex engine continue scanning after it. -/
def domScan : List Char → Option (List Char)
  | [] => none
  | c :: rest =>
    if c = '@' then
      let cap := rest.takeWhile (fun d => ¬(jsWs d ∨ d = '>'))
      if cap.isEmpty then domScan rest else some cap
    else domScan rest

/-- The domain recorded by `addRecord`: captured group, lower-cased. -/
def domainOfEmail (email : String) : Option String :=
  (domScan email.data).map (fun cs => String.mk (cs.map Char.toLower))

/-- `MboxProcessor.addRecord(domains, email, date)`. -/
def addRecord (domains : DomainMap) (email : String) (date : Option Int) :
    DomainMap :=
  match domainOfEmail email with
  | none => domains
  | some fullDomain =>
    let domainGroup := (lookupK domains fullDomain).getD
      { totalCount := 0, senders := []
        isPersonal := PERSONAL_DOMAINS.contains fullDomain }
    let s0 := (lookupK domainGroup.senders email).getD { count := 0 }
    let s1 : SenderData :=
      match date with
      | none => { s0 with count := s0.count + 1 }
      | some t =>
        { count := s0.count + 1
          earliestDate := memEarliest s0.earliestDate (some t)
          latestDate := memLatest s0.latestDate (some t) }
    let d1 : DomainData :=
      { totalCount := domainGroup.totalCount + 1
        senders := setK domainGroup.senders email s1
        isPersonal := domainGroup.isPersonal
        earliestDate :=
          match date with
          | none => domainGroup.earliestDate
          | some t => memEarliest domainGroup.earliestDate (some t)
        latestDate :=
          match date with
          | none => domainGroup.latestDate
          | some t => memLatest domainGroup.latestDate (some t) }
    setK domains fullDomain d1

/-- Scanner state carried across the lines of one batch
(`processBatch`'s local variables). -/
structure ScanState where
  domains : DomainMap
  currentFrom : Option String
  currentDate : Option Int
  inHeaders : Bool
  messageCount : Nat
deriving DecidableEq, Repr

def initialScanState : ScanState :=
  { domains := [], currentFrom := none, currentDate := none
    inHeaders := false, messageCount := 0 }

/-- `if (currentFrom) { addRecord(...); messageCount++ }` — the empty
string is falsy, so a blanked-out `From:` value drops the message. -/
def flushCurrent (st : ScanState) : ScanState :=
  match st.currentFrom with
  | some f =>
    if f = "" then st
    else
      { st with domains := addRecord st.domains f st.currentDate
                messageCount := st.messageCount + 1 }
  | none => st

/-- One `processLine` call together with the callbacks `processBatch`
passes to it.  `rawLine` is trimmed of trailing whitespace first
(`buffer.slice(0, i).trimEnd()`); a `From ` line flushes the pending
message and re-enters the header state; inside headers the `From:`
value (when non-empty) **overwrites** `currentFrom`, the first valid
`Date:` is kept, and an empty line leaves the header state. -/
def scanStep (parseDate : String → Option Int) (st : ScanState)
    (rawLine : String) : ScanState :=
  let line := strTrimEnd rawLine
  if strStarts line "From " then
    let st := flushCurrent st
    { st with currentFrom := none, currentDate := none, inHeaders := true }
  else if st.inHeaders then
    if strStarts line "From:" then
      let rest := strDropN line 5
      if rest = "" then st
      else { st with currentFrom := some (parseFromValue (strTrim rest)) }
    else if strStarts line "Date:" then
      let rest := strDropN line 5
      if rest = "" then st
      else
        match parseDate (strTrim rest) with
        | none => st
        | some t =>
          if st.currentDate = none then { st with currentDate := some t } else st
    else if line = "" then { st with inHeaders := false }
    else st
  else st

/-- `MboxProcessor.processBatch` over an already-decoded list of lines:
fold the scanner over the lines, then flush the pending message
(`// Add last message`).  Returns the batch's partial aggregate and its
message count.  (Byte-range slicing, UTF-8 chunk decoding and the cancel
check inside the read loop live above this granularity; batches are
presented as their line lists.) -/
def processBatch (parseDate : String → Option Int) (lines : List String) :
    DomainMap × Nat :=
  let st := flushCurrent (lines.foldl (scanStep parseDate) initialScanState)
  (st.domains, st.messageCount)

/-! ## Final conversion (`MboxProcessor.convertToDomainGroups`) -/

/-- Output sender record (`Sender` in `constants.ts`; the optional
`name` field is never populated by the processor and is omitted). -/
structure Sender where
  email : String
  count : Nat
  lastEmailDate : Option Int := none
deriving DecidableEq, Repr

/-- Output group record (`DomainGroup` in `constants.ts`). -/
structure DomainGroup where
  domain : String
  totalCount : Nat
  senders : List Sender
  isPersonal : Bool
  earliestDate : Option Int := none
  latestDate : Option Int := none
deriving DecidableEq, Repr

/-- Sender-map entry to output form: only `count` and `latestDate`
survive (`lastEmailDate: senderData.latestDate`). -/
def senderOut (es : String × SenderData) : Sender :=
  { email := es.1, count := es.2.count, lastEmailDate := es.2.latestDate }

def entryToGroup (kv : String × DomainData) : DomainGroup :=
  { domain := kv.1
    totalCount := kv.2.totalCount
    senders := sortByDesc (fun s => s.count) (kv.2.senders.map senderOut)
    isPersonal := kv.2.isPersonal
    earliestDate := kv.2.earliestDate
    latestDate := kv.2.latestDate }

/-- `MboxProcessor.convertToDomainGroups`. -/
def convertToDomainGroups (domains : DomainMap) : List DomainGroup :=
  sortByDesc (fun g => g.totalCount) (domains.map entryToGroup)

/-! ## The run loop (`MboxProcessor.process`) -/

/-- Run parameters: the two spill thresholds (source defaults 500/5000),
the batch index at which the cooperative cancel flag becomes visible,
and which `flush` invocations (counted from 0) throw.  A failed flush is
modelled as leaving the store unchanged; the claim-relevant behaviour is
the control flow (`catch`-and-continue vs. propagate). -/
structure RunConfig where
  maxAccumulatedDomains : Nat := 500
  maxAccumulatedSenders : Nat := 5000
  cancelAt : Option Nat := none
  failFlushes : List Nat := []
deriving Repr

def cancelObserved (cfg : RunConfig) (i : Nat) : Bool :=
  match cfg.cancelAt with
  | some j => decide (j ≤ i)
  | none => false

/-- Sum of `senders.size` over the accumulator (the spill check). -/
def accumulatedSendersCount (m : DomainMap) : Nat :=
  (m.map (fun kv => kv.2.senders.length)).sum

/-- Result of the batch loop: either the cancel flag was observed (the
`catch` path returns `[]` without touching the store), or the loop
finished with the residual accumulator, the store, and the number of
flush calls made. -/
inductive LoopOut
  | cancelled (store : DomainMap)
  | finished (acc : DomainMap) (store : DomainMap) (flushCount : Nat)
deriving Repr

/-- The `while (batchStart < totalBytes)` loop: per batch — cancel
check, `processBatch`, `mergeResults`, threshold check, and a
`try`-wrapped flush whose failure keeps the accumulator and continues. -/
def spillLoop (cfg : RunConfig) (parseDate : String → Option Int) :
    List (List String) → Nat → Nat → DomainMap → DomainMap → LoopOut
  | [], _, fc, acc, store => .finished acc store fc
  | lines :: rest, i, fc, acc, store =>
    if cancelObserved cfg i then .cancelled store
    else
      let batch := (processBatch parseDate lines).1
      let acc := mergeResults acc batch
      if cfg.maxAccumulatedDomains ≤ acc.length ∨
          cfg.maxAccumulatedSenders ≤ accumulatedSendersCount acc then
        if fc ∈ cfg.failFlushes then
          spillLoop cfg parseDate rest (i + 1) (fc + 1) acc store
        else
          spillLoop cfg parseDate rest (i + 1) (fc + 1) [] (flush store acc)
      else spillLoop cfg parseDate rest (i + 1) fc acc store

/-- Errors `process` propagates to its caller (a cancelled run is not an
error: it returns `[]`). -/
inductive RunError
  | storeWriteFailure
deriving DecidableEq, Repr

/-- Observable outcome of a run: the returned value (or propagated
error), the overflow-store contents after the run, and whether the
final unprotected flush threw. -/
structure RunResult where
  output : Except RunError (List DomainGroup)
  store : DomainMap
  finalFlushFailed : Bool
deriving Repr

/-- `MboxProcessor.process`: clear the store (whatever `initStore` a
prior run left), run the batch loop, flush the residual accumulator
**outside** any `try` (its failure propagates), load everything back,
clear the store, and sort into final form.  A cancelled run returns `[]`
and performs no clears. -/
def process (cfg : RunConfig) (parseDate : String → Option Int)
    (initStore : DomainMap) (batches : List (List String)) : RunResult :=
  match spillLoop cfg parseDate batches 0 0 [] [] with
  | .cancelled store =>
    { output := .ok [], store := store, finalFlushFailed := false }
  | .finished acc store fc =>
    if acc.length ≠ 0 then
      if fc ∈ cfg.failFlushes then
        { output := .error .storeWriteFailure, store := store
          finalFlushFailed := true }
      else
        let store := flush store acc
        { output := .ok (convertToDomainGroups (loadAll store)), store := []
          finalFlushFailed := false }
    else
      { output := .ok (convertToDomainGroups (loadAll store)), store := []
        finalFlushFailed := false }

/-! ## Filtering and subdomain consolidation (`App.filteredGroups`) -/

structure DateRange where
  start : Option Int
  stop : Option Int
deriving DecidableEq, Repr

/-- `FilterOptions` from `constants.ts` (`stop` models the field named
`end`, a Lean keyword). -/
structure FilterOptions where
  customExcludedDomains : List String
  joinSubdomains : Bool
  dateRange : DateRange
  minMessageCount : Nat
deriving DecidableEq, Repr

def twoPartTLDs : List String :=
  ["uk", "au", "nz", "jp", "br", "mx", "ar", "co", "za", "in", "ae", "sa"]

def twoPartSLDs : List String :=
  ["co", "com", "net", "org", "gov", "edu", "ac", "sch"]

/-- `domain.split(".")`. -/
def chSplitDot : List Char → List (List Char)
  | [] => [[]]
  | c :: t =>
    match chSplitDot t with
    | [] => [[]]
    | h :: r => if c = '.' then [] :: h :: r else (c :: h) :: r

def splitDots (s : String) : List String := (chSplitDot s.data).map String.mk

def joinDots (parts : List String) : String := String.intercalate "." parts

/-- The root-domain heuristic in `App.filteredGroups`. -/
def rootDomainOf (domain : String) : String :=
  let parts := splitDots domain
  if 2 < parts.length then
    let tld := parts.getD (parts.length - 1) ""
    let sld := parts.getD (parts.length - 2) ""
    if twoPartTLDs.contains tld ∧ twoPartSLDs.contains sld ∧ 3 ≤ parts.length
    then joinDots (parts.drop (parts.length - 3))
    else joinDots (parts.drop (parts.length - 2))
  else domain

/-- Exclusion filter: any excluded entry, lower-cased, occurring as a
substring of the group's domain. -/
def excludedBy (filters : FilterOptions) (g : DomainGroup) : Bool :=
  filters.customExcludedDomains.any (fun d => strIncludes g.domain (strToLower d))

/-- Date-range filter: with a window set, a group lacking either bound
is dropped; otherwise it is dropped when it ends before the window
starts or starts after it ends. -/
def dateFilterOk (filters : FilterOptions) (g : DomainGroup) : Bool :=
  if filters.dateRange.start.isSome || filters.dateRange.stop.isSome then
    match g.earliestDate, g.latestDate with
    | some gs, some ge =>
      (match filters.dateRange.start with
       | some s => decide (¬(ge < s))
       | none => true) &&
      (match filters.dateRange.stop with
       | some e => decide (¬(e < gs))
       | none => true)
    | _, _ => false
  else true

/-- One iteration of the consolidation loop: a fresh root entry is
created with `isPersonal: PERSONAL_DOMAINS.has(rootDomain)` and the
group's date bounds, then counts add, sender lists concatenate, and
bounds widen. -/
def consolidateStep (consolidated : List (String × DomainGroup))
    (group : DomainGroup) : List (String × DomainGroup) :=
  let root := rootDomainOf group.domain
  let rootGroup := (lookupK consolidated root).getD
    { domain := root, totalCount := 0, senders := []
      isPersonal := PERSONAL_DOMAINS.contains root
      earliestDate := group.earliestDate, latestDate := group.latestDate }
  setK consolidated root
    { rootGroup with
      totalCount := rootGroup.totalCount + group.totalCount
      senders := rootGroup.senders ++ group.senders
      earliestDate := memEarliest rootGroup.earliestDate group.earliestDate
      latestDate := memLatest rootGroup.latestDate group.latestDate }

def consolidate (groups : List DomainGroup) : List DomainGroup :=
  (groups.foldl consolidateStep []).map (fun kv => kv.2)

/-- `App.filteredGroups` (the `useMemo` body): early-out on empty
results, per-group filters, optional consolidation, final sort.
`filters.minMessageCount` is never consulted. -/
def filteredGroups (rawResults : List DomainGroup)
    (filters : FilterOptions) : List DomainGroup :=
  if rawResults.length = 0 then []
  else
    let groups := rawResults.filter
      (fun g => !excludedBy filters g && dateFilterOk filters g)
    let groups := if filters.joinSubdomains then consolidate groups else groups
    sortByDesc (fun g => g.totalCount) groups

/-! ## Association-list lemmas -/

theorem keysOf_cons {α : Type} (k0 : String) (w : α) (t : List (String × α)) :
    keysOf ((k0, w) :: t) = k0 :: keysOf t := rfl

theorem setK_cons_eq {α : Type} (k0 : String) (w v : α) (t : List (String × α)) :
    setK ((k0, w) :: t) k0 v = (k0, v) :: t := by simp [setK]

theorem setK_cons_ne {α : Type} {k0 k : String} (h : ¬(k0 = k)) (w v : α)
    (t : List (String × α)) :
    setK ((k0, w) :: t) k v = (k0, w) :: setK t k v := by simp [setK, h]

theorem lookupK_setK {α : Type} (m : List (String × α)) (k q : String) (v : α) :
    lookupK (setK m k v) q = if k = q then some v else lookupK m q := by
  induction m with
  | nil => simp [setK, lookupK]
  | cons hd t ih =>
    obtain ⟨k0, w⟩ := hd
    by_cases hk : k0 = k
    · subst hk
      simp only [setK, if_pos rfl, lookupK]
      by_cases hq : k0 = q <;> simp [hq]
    · simp only [setK, if_neg hk, lookupK]
      by_cases hq : k0 = q
      · subst hq
        have hkq : ¬(k = k0) := fun h => hk h.symm
        simp [hkq]
      · simp [hq, ih]

theorem lookupK_pair_mem {α : Type} {m : List (String × α)} {q : String} {v : α}
    (h : lookupK m q = some v) : (q, v) ∈ m := by
  induction m with
  | nil => simp [lookupK] at h
  | cons hd t ih =>
    obtain ⟨k0, w⟩ := hd
    by_cases hq : k0 = q
    · subst hq
      simp [lookupK] at h
      simp [h]
    · simp [lookupK, hq] at h
      exact List.mem_cons_of_mem _ (ih h)

theorem mem_keysOf_of_lookupK {α : Type} {m : List (String × α)} {q : String}
    {v : α} (h : lookupK m q = some v) : q ∈ keysOf m :=
  List.mem_map_of_mem Prod.fst (lookupK_pair_mem h)

theorem lookupK_eq_none_of_not_mem {α : Type} {m : List (String × α)}
    {q : String} (h : q ∉ keysOf m) : lookupK m q = none := by
  induction m with
  | nil => rfl
  | cons hd t ih =>
    obtain ⟨k0, w⟩ := hd
    rw [keysOf_cons, List.mem_cons] at h
    push_neg at h
    have hne : ¬(k0 = q) := fun he => h.1 he.symm
    simp [lookupK, hne, ih h.2]

theorem lookupK_of_mem_nodup {α : Type} {m : List (String × α)} {kv : String × α}
    (hnd : (keysOf m).Nodup) (h : kv ∈ m) : lookupK m kv.1 = some kv.2 := by
  induction m with
  | nil => simp at h
  | cons hd t ih =>
    obtain ⟨k0, w⟩ := hd
    rw [keysOf_cons, List.nodup_cons] at hnd
    rcases List.mem_cons.mp h with h1 | h1
    · subst h1
      simp [lookupK]
    · have hk : ¬(k0 = kv.1) := by
        intro he
        exact hnd.1 (he ▸ List.mem_map_of_mem Prod.fst h1)
      simp [lookupK, hk]
      exact ih hnd.2 h1

theorem keysOf_setK_subset {α : Type} (m : List (String × α)) (k q : String)
    (v : α) (h : q ∈ keysOf (setK m k v)) : q ∈ keysOf m ∨ q = k := by
  induction m with
  | nil =>
    simp only [setK, keysOf, List.map_cons, List.map_nil, List.mem_singleton] at h
    exact Or.inr h
  | cons hd t ih =>
    obtain ⟨k0, w⟩ := hd
    by_cases hk : k0 = k
    · subst hk
      rw [setK_cons_eq, keysOf_cons, List.mem_cons] at h
      rw [keysOf_cons, List.mem_cons]
      rcases h with h | h
      · exact Or.inl (Or.inl h)
      · exact Or.inl (Or.inr h)
    · rw [setK_cons_ne hk, keysOf_cons, List.mem_cons] at h
      rw [keysOf_cons, List.mem_cons]
      rcases h with h | h
      · exact Or.inl (Or.inl h)
      · rcases ih h with h1 | h1
        · exact Or.inl (Or.inr h1)
        · exact Or.inr h1

theorem nodup_keysOf_setK {α : Type} (m : List (String × α)) (k : String) (v : α)
    (h : (keysOf m).Nodup) : (keysOf (setK m k v)).Nodup := by
  induction m with
  | nil => simp [setK, keysOf]
  | cons hd t ih =>
    obtain ⟨k0, w⟩ := hd
    rw [keysOf_cons, List.nodup_cons] at h
    by_cases hk : k0 = k
    · subst hk
      rw [setK_cons_eq, keysOf_cons, List.nodup_cons]
      exact ⟨h.1, h.2⟩
    · rw [setK_cons_ne hk, keysOf_cons, List.nodup_cons]
      refine ⟨?_, ih h.2⟩
      intro hq
      rcases keysOf_setK_subset t k k0 v hq with h1 | h1
      · exact h.1 h1
      · exact hk h1

theorem mem_setK {α : Type} {m : List (String × α)} {k : String} {v : α}
    {kv : String × α} (h : kv ∈ setK m k v) : kv ∈ m ∨ kv = (k, v) := by
  induction m with
  | nil =>
    simp only [setK, List.mem_singleton] at h
    exact Or.inr h
  | cons hd t ih =>
    obtain ⟨k0, w⟩ := hd
    by_cases hk : k0 = k
    · subst hk
      rw [setK_cons_eq] at h
      rcases List.mem_cons.mp h with h1 | h1
      · exact Or.inr h1
      · exact Or.inl (List.mem_cons_of_mem _ h1)
    · rw [setK_cons_ne hk] at h
      rcases List.mem_cons.mp h with h1 | h1
      · exact Or.inl (h1 ▸ List.mem_cons_self _ _)
      · rcases ih h1 with h2 | h2
        · exact Or.inl (List.mem_cons_of_mem _ h2)
        · exact Or.inr h2

/-- The per-key semantics of every merge loop: with distinct batch keys,
the result looks up to the batch-combined value. -/
theorem lookupK_foldMerge {α : Type} (f : Option α → α → α)
    (b : List (String × α)) (m : List (String × α))
    (hb : (keysOf b).Nodup) (q : String) :
    lookupK (foldMerge m b f) q =
      match lookupK b q with
      | none => lookupK m q
      | some v => some (f (lookupK m q) v) := by
  induction b generalizing m with
  | nil => simp [foldMerge, lookupK]
  | cons hd t ih =>
    obtain ⟨k0, w⟩ := hd
    rw [keysOf_cons, List.nodup_cons] at hb
    have step : foldMerge m ((k0, w) :: t) f =
        foldMerge (setK m k0 (f (lookupK m k0) w)) t f := by
      simp [foldMerge]
    rw [step, ih _ hb.2]
    by_cases hq : k0 = q
    · subst hq
      have ht : lookupK t k0 = none := lookupK_eq_none_of_not_mem hb.1
      simp [lookupK, ht, lookupK_setK]
    · simp only [lookupK, if_neg hq]
      have hset : lookupK (setK m k0 (f (lookupK m k0) w)) q = lookupK m q := by
        rw [lookupK_setK]
        simp [hq]
      rw [hset]

theorem nodup_keysOf_foldMerge {α : Type} (f : Option α → α → α)
    (b m : List (String × α)) (hm : (keysOf m).Nodup) :
    (keysOf (foldMerge m b f)).Nodup := by
  induction b generalizing m with
  | nil => simpa [foldMerge] using hm
  | cons hd t ih =>
    have step : foldMerge m (hd :: t) f =
        foldMerge (setK m hd.1 (f (lookupK m hd.1) hd.2)) t f := by
      simp [foldMerge]
    rw [step]
    exact ih _ (nodup_keysOf_setK _ _ _ hm)

/-- Values of a merge result are old values or combined values (with
distinct batch keys). -/
theorem lookupK_foldMerge_cases {α : Type} {f : Option α → α → α}
    {b m : List (String × α)} (hb : (keysOf b).Nodup) {q : String} {v : α}
    (h : lookupK (foldMerge m b f) q = some v) :
    lookupK m q = some v ∨
      ∃ w, lookupK b q = some w ∧ v = f (lookupK m q) w := by
  rw [lookupK_foldMerge f b m hb q] at h
  cases hbq : lookupK b q with
  | none => rw [hbq] at h; exact Or.inl h
  | some w =>
    rw [hbq] at h
    exact Or.inr ⟨w, rfl, (Option.some.injEq _ _).mp h.symm⟩

theorem lookupK_map_value {α β : Type} (g : α → β) (m : List (String × α))
    (q : String) :
    lookupK (m.map (fun kv => (kv.1, g kv.2))) q = (lookupK m q).map g := by
  induction m with
  | nil => simp [lookupK]
  | cons hd t ih =>
    by_cases hq : hd.1 = q
    · simp [lookupK, hq]
    · simp [lookupK, hq, ih]

/-! ## Sum lemmas (count conservation machinery) -/

/-- Sum of a numeric field over map values. -/
def sumBy {α : Type} (g : α → Nat) (m : List (String × α)) : Nat :=
  (m.map (fun kv => g kv.2)).sum

theorem sumBy_setK_present {α : Type} (g : α → Nat) {m : List (String × α)}
    {k : String} {w : α} (h : lookupK m k = some w) (v : α) :
    sumBy g (setK m k v) + g w = sumBy g m + g v := by
  induction m with
  | nil => simp [lookupK] at h
  | cons hd t ih =>
    obtain ⟨k0, w0⟩ := hd
    by_cases hk : k0 = k
    · subst hk
      simp [lookupK] at h
      subst h
      simp [setK, sumBy]
      omega
    · simp [lookupK, hk] at h
      simp [setK, hk, sumBy] at ih ⊢
      have := ih h
      omega

theorem sumBy_setK_absent {α : Type} (g : α → Nat) {m : List (String × α)}
    {k : String} (h : lookupK m k = none) (v : α) :
    sumBy g (setK m k v) = sumBy g m + g v := by
  induction m with
  | nil => simp [setK, sumBy]
  | cons hd t ih =>
    obtain ⟨k0, w0⟩ := hd
    by_cases hk : k0 = k
    · subst hk
      simp [lookupK] at h
    · simp [lookupK, hk] at h
      simp [setK, hk, sumBy] at ih ⊢
      have := ih h
      omega

/-- A merge loop whose combiner adds the field sums the field. -/
theorem sumBy_foldMerge {α : Type} (g : α → Nat) (f : Option α → α → α)
    (hsome : ∀ w v, g (f (some w) v) = g w + g v)
    (hnone : ∀ v, g (f none v) = g v)
    (b m : List (String × α)) :
    sumBy g (foldMerge m b f) = sumBy g m + sumBy g b := by
  induction b generalizing m with
  | nil => simp [foldMerge, sumBy]
  | cons hd t ih =>
    obtain ⟨k0, w0⟩ := hd
    have step : foldMerge m ((k0, w0) :: t) f =
        foldMerge (setK m k0 (f (lookupK m k0) w0)) t f := by
      simp [foldMerge]
    rw [step, ih]
    cases hl : lookupK m k0 with
    | none =>
      rw [sumBy_setK_absent g hl]
      simp [hl, hnone, sumBy]
      omega
    | some w =>
      have := sumBy_setK_present g hl (f (some w) w0)
      simp [hsome] at this
      simp [sumBy] at this ⊢
      omega

/-! ## Sort and find lemmas -/

theorem insertByDesc_perm {α : Type} (key : α → Nat) (x : α) (l : List α) :
    (insertByDesc key x l).Perm (x :: l) := by
  induction l with
  | nil => simp [insertByDesc]
  | cons y t ih =>
    simp only [insertByDesc]
    split
    · exact (ih.cons y).trans (List.Perm.swap x y t)
    · exact List.Perm.refl _

theorem sortByDesc_perm {α : Type} (key : α → Nat) (l : List α) :
    (sortByDesc key l).Perm l := by
  induction l with
  | nil => simp [sortByDesc]
  | cons x t ih =>
    exact (insertByDesc_perm key x (sortByDesc key t)).trans (ih.cons x)

theorem find?_congr_perm {α : Type} {p : α → Bool} {l l' : List α}
    (hperm : l.Perm l') (hu : l.countP p ≤ 1) : l.find? p = l'.find? p := by
  cases h : l.find? p with
  | none =>
    have hnone : ∀ x ∈ l, ¬p x := List.find?_eq_none.mp h
    symm
    exact List.find?_eq_none.mpr fun x hx => hnone x (hperm.mem_iff.mpr hx)
  | some a =>
    have hpa : p a := List.find?_some h
    have hal : a ∈ l := List.mem_of_find?_eq_some h
    cases h' : l'.find? p with
    | none =>
      have := List.find?_eq_none.mp h' a (hperm.mem_iff.mp hal)
      exact absurd hpa this
    | some b =>
      have hpb : p b := List.find?_some h'
      have hbl : b ∈ l := hperm.mem_iff.mpr (List.mem_of_find?_eq_some h')
      have hfa : a ∈ l.filter p := List.mem_filter.mpr ⟨hal, hpa⟩
      have hfb : b ∈ l.filter p := List.mem_filter.mpr ⟨hbl, hpb⟩
      rw [List.countP_eq_length_filter] at hu
      have hone : (l.filter p).length = 1 := by
        have : 0 < (l.filter p).length := List.length_pos_of_mem hfa
        omega
      obtain ⟨c, hc⟩ := List.length_eq_one.mp hone
      rw [hc] at hfa hfb
      simp at hfa hfb
      rw [hfa, hfb]

theorem countP_le_one_of_nodup_keys {α : Type} (key : α → String) (l : List α)
    (h : (l.map key).Nodup) (d : String) :
    l.countP (fun x => decide (key x = d)) ≤ 1 := by
  induction l with
  | nil => simp
  | cons x t ih =>
    simp at h
    by_cases hx : key x = d
    · have hzero : t.countP (fun y => decide (key y = d)) = 0 := by
        rw [List.countP_eq_zero]
        intro y hy
        simp
        intro he
        exact h.1 y hy (by rw [hx, he])
      rw [List.countP_cons]
      simp [hx, hzero]
    · rw [List.countP_cons]
      simp [hx]
      exact ih h.2

/-! ## Date-bound algebra -/

theorem memEarliest_none_left (b : Option Int) : memEarliest none b = b := by
  cases b <;> rfl

theorem memEarliest_none_right (a : Option Int) : memEarliest a none = a := rfl

theorem memEarliest_some_some (x y : Int) :
    memEarliest (some x) (some y) = some (min x y) := by
  simp only [memEarliest]
  split_ifs with h
  · rw [min_eq_right h.le]
  · rw [min_eq_left (not_lt.mp h)]

theorem memEarliest_comm (a b : Option Int) :
    memEarliest a b = memEarliest b a := by
  cases a with
  | none => rw [memEarliest_none_left, memEarliest_none_right]
  | some av =>
    cases b with
    | none => rw [memEarliest_none_left, memEarliest_none_right]
    | some bv => rw [memEarliest_some_some, memEarliest_some_some, min_comm]

theorem memEarliest_assoc (a b c : Option Int) :
    memEarliest (memEarliest a b) c = memEarliest a (memEarliest b c) := by
  cases c with
  | none => rw [memEarliest_none_right, memEarliest_none_right]
  | some cv =>
    cases b with
    | none => rw [memEarliest_none_right, memEarliest_none_left]
    | some bv =>
      cases a with
      | none => rw [memEarliest_none_left, memEarliest_none_left]
      | some av =>
        rw [memEarliest_some_some, memEarliest_some_some, memEarliest_some_some,
          memEarliest_some_some, min_assoc]

theorem memLatest_none_left (b : Option Int) : memLatest none b = b := by
  cases b <;> rfl

theorem memLatest_none_right (a : Option Int) : memLatest a none = a := rfl

theorem memLatest_some_some (x y : Int) :
    memLatest (some x) (some y) = some (max x y) := by
  simp only [memLatest]
  split_ifs with h
  · rw [max_eq_right h.le]
  · rw [max_eq_left (not_lt.mp h)]

theorem memLatest_comm (a b : Option Int) : memLatest a b = memLatest b a := by
  cases a with
  | none => rw [memLatest_none_left, memLatest_none_right]
  | some av =>
    cases b with
    | none => rw [memLatest_none_left, memLatest_none_right]
    | some bv => rw [memLatest_some_some, memLatest_some_some, max_comm]

theorem memLatest_assoc (a b c : Option Int) :
    memLatest (memLatest a b) c = memLatest a (memLatest b c) := by
  cases c with
  | none => rw [memLatest_none_right, memLatest_none_right]
  | some cv =>
    cases b with
    | none => rw [memLatest_none_right, memLatest_none_left]
    | some bv =>
      cases a with
      | none => rw [memLatest_none_left, memLatest_none_left]
      | some av =>
        rw [memLatest_some_some, memLatest_some_some, memLatest_some_some,
          memLatest_some_some, max_assoc]

/-! ## Sender-level merge algebra -/

theorem mergeSenderInto_none (b : SenderData) : mergeSenderInto none b = b := by
  cases b
  simp [mergeSenderInto, memEarliest_none_left, memLatest_none_left]

theorem mergeSenderInto_comm (a b : SenderData) :
    mergeSenderInto (some a) b = mergeSenderInto (some b) a := by
  simp only [mergeSenderInto, Option.getD_some, SenderData.mk.injEq]
  exact ⟨Nat.add_comm _ _, memEarliest_comm _ _, memLatest_comm _ _⟩

theorem mergeSenderInto_assoc (x : Option SenderData) (b c : SenderData) :
    mergeSenderInto (some (mergeSenderInto x b)) c =
      mergeSenderInto x (mergeSenderInto (some b) c) := by
  cases x with
  | none => rw [mergeSenderInto_none, mergeSenderInto_none]
  | some a =>
    simp only [mergeSenderInto, Option.getD_some, SenderData.mk.injEq]
    exact ⟨Nat.add_assoc _ _ _, memEarliest_assoc _ _ _, memLatest_assoc _ _ _⟩

/-- Pointwise form of the sender merge loop. -/
def optMergeSender (x y : Option SenderData) : Option SenderData :=
  match y with
  | none => x
  | some b => some (mergeSenderInto x b)

theorem optMergeSender_none_right (x : Option SenderData) :
    optMergeSender x none = x := rfl

theorem optMergeSender_comm (x y : Option SenderData) :
    optMergeSender x y = optMergeSender y x := by
  cases x <;> cases y <;>
    simp [optMergeSender, mergeSenderInto_none, mergeSenderInto_comm]

theorem optMergeSender_assoc (x y z : Option SenderData) :
    optMergeSender (optMergeSender x y) z =
      optMergeSender x (optMergeSender y z) := by
  cases z with
  | none => rfl
  | some c =>
    cases y with
    | none => simp [optMergeSender, mergeSenderInto_none]
    | some b => simp [optMergeSender, mergeSenderInto_assoc]

/-! ## Wellformedness and zero-freeness -/

/-- A domain record with distinct sender keys (true of everything the
pipeline builds, since senders live in a `Map`). -/
def WFdomain (d : DomainData) : Prop := (keysOf d.senders).Nodup

/-- An aggregate with distinct domain keys whose records are
wellformed. -/
def WFmap (m : DomainMap) : Prop :=
  (keysOf m).Nodup ∧ ∀ kv ∈ m, WFdomain kv.2

instance : DecidablePred WFdomain := fun d => by
  unfold WFdomain; infer_instance

instance (m : DomainMap) : Decidable (WFmap m) := by
  unfold WFmap; infer_instance

/-- A timestamp that is not the serialized epoch `0` (the value the
store layer treats as absent). -/
def zfTs (o : Option Int) : Prop := o ≠ some 0

def zfSender (s : SenderData) : Prop := zfTs s.earliestDate ∧ zfTs s.latestDate

def zfDomain (d : DomainData) : Prop :=
  zfTs d.earliestDate ∧ zfTs d.latestDate ∧ ∀ kv ∈ d.senders, zfSender kv.2

def zfMap (m : DomainMap) : Prop := ∀ kv ∈ m, zfDomain kv.2

instance (o : Option Int) : Decidable (zfTs o) := by unfold zfTs; infer_instance

instance (s : SenderData) : Decidable (zfSender s) := by
  unfold zfSender; infer_instance

instance (d : DomainData) : Decidable (zfDomain d) := by
  unfold zfDomain; infer_instance

instance (m : DomainMap) : Decidable (zfMap m) := by
  unfold zfMap; infer_instance

/-! ## Domain-level merge algebra -/

def baseTotal : Option DomainData → Nat
  | some a => a.totalCount
  | none => 0

def baseEarliest : Option DomainData → Option Int
  | some a => a.earliestDate
  | none => none

def baseLatest : Option DomainData → Option Int
  | some a => a.latestDate
  | none => none

def baseSenders (x : Option DomainData) (e : String) : Option SenderData :=
  match x with
  | some a => lookupK a.senders e
  | none => none

theorem mDI_total (x : Option DomainData) (b : DomainData) :
    (mergeDomainInto x b).totalCount = baseTotal x + b.totalCount := by
  cases x <;> rfl

theorem mDI_earliest (x : Option DomainData) (b : DomainData) :
    (mergeDomainInto x b).earliestDate =
      memEarliest (baseEarliest x) b.earliestDate := by
  cases x <;> rfl

theorem mDI_latest (x : Option DomainData) (b : DomainData) :
    (mergeDomainInto x b).latestDate =
      memLatest (baseLatest x) b.latestDate := by
  cases x <;> rfl

theorem mDI_senders (x : Option DomainData) (b : DomainData)
    (hb : WFdomain b) (e : String) :
    lookupK (mergeDomainInto x b).senders e =
      optMergeSender (baseSenders x e) (lookupK b.senders e) := by
  have hsen : (mergeDomainInto x b).senders =
      foldMerge (match x with | some a => a.senders | none => []) b.senders
        mergeSenderInto := by
    cases x <;> rfl
  rw [hsen, lookupK_foldMerge _ _ _ hb e]
  cases x with
  | none =>
    cases h : lookupK b.senders e <;> simp [baseSenders, optMergeSender, lookupK]
  | some a =>
    cases h : lookupK b.senders e <;> simp [baseSenders, optMergeSender]

theorem WFdomain_mDI (x : Option DomainData) (b : DomainData)
    (hx : ∀ a, x = some a → WFdomain a) : WFdomain (mergeDomainInto x b) := by
  have hsen : (mergeDomainInto x b).senders =
      foldMerge (match x with | some a => a.senders | none => []) b.senders
        mergeSenderInto := by
    cases x <;> rfl
  unfold WFdomain
  rw [hsen]
  apply nodup_keysOf_foldMerge
  cases x with
  | none => simp [keysOf]
  | some a => exact hx a rfl

/-! ## Field-by-field equivalence of aggregates -/

/-- The fields the §4.3 merge law governs at domain level. -/
def domFields (d : DomainData) : Nat × Option Int × Option Int :=
  (d.totalCount, d.earliestDate, d.latestDate)

/-- Sender record under domain `d`, sender key `e`. -/
def senderAt (m : DomainMap) (d e : String) : Option SenderData :=
  (lookupK m d).bind fun dd => lookupK dd.senders e

/-- Field-by-field comparison per the §4.3 law: domain key set, domain
totals and date bounds, sender key sets and per-sender counts and date
bounds.  (`isPersonal` is not one of the law's fields.) -/
def aggEquiv (A B : DomainMap) : Prop :=
  ∀ d, (lookupK A d).map domFields = (lookupK B d).map domFields ∧
    ∀ e, senderAt A d e = senderAt B d e

theorem aggEquiv_refl (A : DomainMap) : aggEquiv A A :=
  fun _ => ⟨rfl, fun _ => rfl⟩

theorem aggEquiv_symm {A B : DomainMap} (h : aggEquiv A B) : aggEquiv B A :=
  fun d => ⟨(h d).1.symm, fun e => ((h d).2 e).symm⟩

theorem aggEquiv_trans {A B C : DomainMap} (h1 : aggEquiv A B)
    (h2 : aggEquiv B C) : aggEquiv A C :=
  fun d => ⟨(h1 d).1.trans (h2 d).1, fun e => ((h1 d).2 e).trans ((h2 d).2 e)⟩

/-- Pointwise form of the domain merge loop. -/
def optMergeDomain (x y : Option DomainData) : Option DomainData :=
  match y with
  | none => x
  | some b => some (mergeDomainInto x b)

theorem lookupK_mergeResults (A B : DomainMap) (hB : (keysOf B).Nodup)
    (d : String) :
    lookupK (mergeResults A B) d =
      optMergeDomain (lookupK A d) (lookupK B d) := by
  rw [mergeResults, lookupK_foldMerge _ _ _ hB]
  cases lookupK B d <;> rfl

theorem WFmap_lookup {m : DomainMap} (h : WFmap m) {d : String}
    {dd : DomainData} (hl : lookupK m d = some dd) : WFdomain dd :=
  h.2 _ (lookupK_pair_mem hl)

theorem zfMap_lookup {m : DomainMap} (h : zfMap m) {d : String}
    {dd : DomainData} (hl : lookupK m d = some dd) : zfDomain dd :=
  h _ (lookupK_pair_mem hl)

theorem zfDomain_lookup {dd : DomainData} (h : zfDomain dd) {e : String}
    {sv : SenderData} (hl : lookupK dd.senders e = some sv) : zfSender sv :=
  h.2.2 _ (lookupK_pair_mem hl)

theorem WFmap_mergeResults {A B : DomainMap} (hA : WFmap A) (hB : WFmap B) :
    WFmap (mergeResults A B) := by
  refine ⟨nodup_keysOf_foldMerge _ _ _ hA.1, ?_⟩
  intro kv hkv
  have hl : lookupK (mergeResults A B) kv.1 = some kv.2 :=
    lookupK_of_mem_nodup (nodup_keysOf_foldMerge _ _ _ hA.1) hkv
  rw [lookupK_mergeResults A B hB.1] at hl
  cases hBl : lookupK B kv.1 with
  | none =>
    rw [hBl] at hl
    exact WFmap_lookup hA hl
  | some b =>
    rw [hBl] at hl
    simp only [optMergeDomain, Option.some.injEq] at hl
    rw [← hl]
    exact WFdomain_mDI _ _ (fun a ha => WFmap_lookup hA ha)

/-! ## Zero-freeness preservation -/

theorem zfTs_memEarliest {a b : Option Int} (ha : zfTs a) (hb : zfTs b) :
    zfTs (memEarliest a b) := by
  cases a with
  | none => rw [memEarliest_none_left]; exact hb
  | some av =>
    cases b with
    | none => exact ha
    | some bv =>
      rw [memEarliest_some_some]
      rcases min_cases av bv with ⟨h, _⟩ | ⟨h, _⟩ <;> rw [h]
      · exact ha
      · exact hb

theorem zfTs_memLatest {a b : Option Int} (ha : zfTs a) (hb : zfTs b) :
    zfTs (memLatest a b) := by
  cases a with
  | none => rw [memLatest_none_left]; exact hb
  | some av =>
    cases b with
    | none => exact ha
    | some bv =>
      rw [memLatest_some_some]
      rcases max_cases av bv with ⟨h, _⟩ | ⟨h, _⟩ <;> rw [h]
      · exact ha
      · exact hb

theorem zfSender_msi {x : Option SenderData} {v : SenderData}
    (hx : ∀ w, x = some w → zfSender w) (hv : zfSender v) :
    zfSender (mergeSenderInto x v) := by
  cases x with
  | none => rw [mergeSenderInto_none]; exact hv
  | some w =>
    have hw := hx w rfl
    exact ⟨zfTs_memEarliest hw.1 hv.1, zfTs_memLatest hw.2 hv.2⟩

theorem zfDomain_mDI {x : Option DomainData} {b : DomainData}
    (hx : ∀ a, x = some a → WFdomain a ∧ zfDomain a)
    (hbW : WFdomain b) (hbZ : zfDomain b) :
    zfDomain (mergeDomainInto x b) := by
  have hWF : WFdomain (mergeDomainInto x b) :=
    WFdomain_mDI _ _ (fun a ha => (hx a ha).1)
  refine ⟨?_, ?_, ?_⟩
  · rw [mDI_earliest]
    apply zfTs_memEarliest _ hbZ.1
    cases x with
    | none => intro h; cases h
    | some a => exact (hx a rfl).2.1
  · rw [mDI_latest]
    apply zfTs_memLatest _ hbZ.2.1
    cases x with
    | none => intro h; cases h
    | some a => exact (hx a rfl).2.2.1
  · intro kv hkv
    have hl : lookupK (mergeDomainInto x b).senders kv.1 = some kv.2 :=
      lookupK_of_mem_nodup hWF hkv
    rw [mDI_senders x b hbW] at hl
    cases hbl : lookupK b.senders kv.1 with
    | none =>
      rw [hbl] at hl
      cases x with
      | none => cases hl
      | some a => exact zfDomain_lookup (hx a rfl).2 hl
    | some v =>
      rw [hbl] at hl
      simp only [optMergeSender, Option.some.injEq] at hl
      rw [← hl]
      refine zfSender_msi ?_ (zfDomain_lookup hbZ hbl)
      intro w hw
      cases x with
      | none => cases hw
      | some a => exact zfDomain_lookup (hx a rfl).2 hw

theorem zfMap_mergeResults {A B : DomainMap} (hA : WFmap A) (hB : WFmap B)
    (hzA : zfMap A) (hzB : zfMap B) : zfMap (mergeResults A B) := by
  intro kv hkv
  have hl : lookupK (mergeResults A B) kv.1 = some kv.2 :=
    lookupK_of_mem_nodup (WFmap_mergeResults hA hB).1 hkv
  rw [lookupK_mergeResults A B hB.1] at hl
  cases hBl : lookupK B kv.1 with
  | none =>
    rw [hBl] at hl
    exact zfMap_lookup hzA hl
  | some b =>
    rw [hBl] at hl
    simp only [optMergeDomain, Option.some.injEq] at hl
    rw [← hl]
    exact zfDomain_mDI (fun a ha => ⟨WFmap_lookup hA ha, zfMap_lookup hzA ha⟩)
      (WFmap_lookup hB hBl) (zfMap_lookup hzB hBl)

/-! ## Store merge agrees with the in-memory merge off the epoch -/

theorem storeSenderEarliest_eq_mem (a b : Option Int) (ha : zfTs a)
    (hb : zfTs b) : storeSenderEarliest a b = memEarliest a b := by
  cases b with
  | none => rfl
  | some bv =>
    have hb0 : ¬(bv = 0) := fun h => hb (by rw [h])
    cases a with
    | none => simp [storeSenderEarliest, memEarliest, hb0]
    | some av =>
      have ha0 : ¬(av = 0) := fun h => ha (by rw [h])
      simp [storeSenderEarliest, memEarliest, hb0, ha0]

theorem storeSenderLatest_eq_mem (a b : Option Int) (ha : zfTs a)
    (hb : zfTs b) : storeSenderLatest a b = memLatest a b := by
  cases b with
  | none => rfl
  | some bv =>
    have hb0 : ¬(bv = 0) := fun h => hb (by rw [h])
    cases a with
    | none => simp [storeSenderLatest, memLatest, hb0]
    | some av =>
      have ha0 : ¬(av = 0) := fun h => ha (by rw [h])
      simp [storeSenderLatest, memLatest, hb0, ha0]

theorem storeDomEarliest_eq_mem (a b : Option Int) (ha : zfTs a)
    (hb : zfTs b) : storeDomEarliest a b = memEarliest a b := by
  cases b with
  | none =>
    cases a with
    | none => rfl
    | some av =>
      have ha0 : ¬(av = 0) := fun h => ha (by rw [h])
      simp [storeDomEarliest, jsOrTs, tsTruthy, memEarliest, ha0]
  | some bv =>
    have hb0 : ¬(bv = 0) := fun h => hb (by rw [h])
    cases a with
    | none => simp [storeDomEarliest, jsOrTs, tsTruthy, memEarliest, hb0]
    | some av =>
      have ha0 : ¬(av = 0) := fun h => ha (by rw [h])
      rw [memEarliest_some_some]
      simp [storeDomEarliest, ha0, hb0]

theorem storeDomLatest_eq_mem (a b : Option Int) (ha : zfTs a)
    (hb : zfTs b) : storeDomLatest a b = memLatest a b := by
  cases b with
  | none =>
    cases a with
    | none => rfl
    | some av =>
      have ha0 : ¬(av = 0) := fun h => ha (by rw [h])
      simp [storeDomLatest, jsOrTs, tsTruthy, memLatest, ha0]
  | some bv =>
    have hb0 : ¬(bv = 0) := fun h => hb (by rw [h])
    cases a with
    | none => simp [storeDomLatest, jsOrTs, tsTruthy, memLatest, hb0]
    | some av =>
      have ha0 : ¬(av = 0) := fun h => ha (by rw [h])
      rw [memLatest_some_some]
      simp [storeDomLatest, ha0, hb0]

theorem storeMergeSender_eq_mem (x : Option SenderData) (v : SenderData)
    (hx : ∀ w, x = some w → zfSender w) (hv : zfSender v) :
    storeMergeSender x v = mergeSenderInto x v := by
  cases x with
  | none => rw [mergeSenderInto_none]; rfl
  | some w =>
    have hw := hx w rfl
    simp only [storeMergeSender, mergeSenderInto, Option.getD_some,
      SenderData.mk.injEq]
    exact ⟨trivial, storeSenderEarliest_eq_mem _ _ hw.1 hv.1,
      storeSenderLatest_eq_mem _ _ hw.2 hv.2⟩

theorem WFdomain_sMD (x : Option DomainData) (b : DomainData)
    (hx : ∀ a, x = some a → WFdomain a) (hb : WFdomain b) :
    WFdomain (storeMergeDomain x b) := by
  cases x with
  | none => exact hb
  | some a =>
    unfold WFdomain storeMergeDomain
    exact nodup_keysOf_foldMerge _ _ _ (hx a rfl)

theorem lookupK_flush (A B : DomainMap) (hB : (keysOf B).Nodup) (d : String) :
    lookupK (flush A B) d =
      match lookupK B d with
      | none => lookupK A d
      | some b => some (storeMergeDomain (lookupK A d) b) := by
  rw [flush, lookupK_foldMerge _ _ _ hB]
  cases lookupK B d <;> rfl

theorem WFmap_flush {A B : DomainMap} (hA : WFmap A) (hB : WFmap B) :
    WFmap (flush A B) := by
  refine ⟨nodup_keysOf_foldMerge _ _ _ hA.1, ?_⟩
  intro kv hkv
  have hl : lookupK (flush A B) kv.1 = some kv.2 :=
    lookupK_of_mem_nodup (nodup_keysOf_foldMerge _ _ _ hA.1) hkv
  rw [lookupK_flush A B hB.1] at hl
  cases hBl : lookupK B kv.1 with
  | none =>
    rw [hBl] at hl
    exact WFmap_lookup hA hl
  | some b =>
    rw [hBl] at hl
    simp only [Option.some.injEq] at hl
    rw [← hl]
    exact WFdomain_sMD _ _ (fun a ha => WFmap_lookup hA ha) (WFmap_lookup hB hBl)

/-- Pointwise agreement of the store merge with the in-memory merge when
no timestamp is the serialized epoch `0`. -/
theorem storeMergeDomain_equiv_mem (x : Option DomainData) (b : DomainData)
    (hx : ∀ a, x = some a → WFdomain a ∧ zfDomain a)
    (hbW : WFdomain b) (hbZ : zfDomain b) :
    domFields (storeMergeDomain x b) = domFields (mergeDomainInto x b) ∧
    ∀ e, lookupK (storeMergeDomain x b).senders e =
      lookupK (mergeDomainInto x b).senders e := by
  cases x with
  | none =>
    constructor
    · simp [storeMergeDomain, domFields, mDI_total, mDI_earliest, mDI_latest,
        baseTotal, baseEarliest, baseLatest, memEarliest_none_left,
        memLatest_none_left]
    · intro e
      rw [mDI_senders none b hbW e]
      cases h : lookupK b.senders e <;>
        simp [storeMergeDomain, baseSenders, optMergeSender, h,
          mergeSenderInto_none]
  | some a =>
    obtain ⟨haW, haZ⟩ := hx a rfl
    constructor
    · simp only [domFields, storeMergeDomain, mDI_total, mDI_earliest,
        mDI_latest, baseTotal, baseEarliest, baseLatest, Prod.mk.injEq]
      exact ⟨trivial, storeDomEarliest_eq_mem _ _ haZ.1 hbZ.1,
        storeDomLatest_eq_mem _ _ haZ.2.1 hbZ.2.1⟩
    · intro e
      rw [mDI_senders (some a) b hbW e]
      have hL : lookupK (storeMergeDomain (some a) b).senders e =
          match lookupK b.senders e with
          | none => lookupK a.senders e
          | some v => some (storeMergeSender (lookupK a.senders e) v) := by
        show lookupK (foldMerge a.senders b.senders storeMergeSender) e = _
        rw [lookupK_foldMerge _ _ _ hbW]
        cases lookupK b.senders e <;> rfl
      rw [hL]
      cases h : lookupK b.senders e with
      | none => simp [baseSenders, optMergeSender]
      | some v =>
        simp only [baseSenders, optMergeSender, Option.some.injEq]
        apply storeMergeSender_eq_mem
        · intro w hw
          exact zfDomain_lookup haZ hw
        · exact zfDomain_lookup hbZ h

/-- `flush` computes (field-by-field) the same aggregate as
`mergeResults` when no timestamp equals the epoch. -/
theorem flush_equiv_merge {A B : DomainMap} (hA : WFmap A) (hB : WFmap B)
    (hzA : zfMap A) (hzB : zfMap B) :
    aggEquiv (flush A B) (mergeResults A B) := by
  intro d
  cases hBl : lookupK B d with
  | none =>
    have hch : lookupK (flush A B) d = lookupK A d := by
      rw [lookupK_flush A B hB.1, hBl]
    have hcm : lookupK (mergeResults A B) d = lookupK A d := by
      rw [lookupK_mergeResults A B hB.1, hBl]
      rfl
    constructor
    · rw [hch, hcm]
    · intro e
      unfold senderAt
      rw [hch, hcm]
  | some b =>
    have hch : lookupK (flush A B) d =
        some (storeMergeDomain (lookupK A d) b) := by
      rw [lookupK_flush A B hB.1, hBl]
    have hcm : lookupK (mergeResults A B) d =
        some (mergeDomainInto (lookupK A d) b) := by
      rw [lookupK_mergeResults A B hB.1, hBl]
      rfl
    have heq := storeMergeDomain_equiv_mem (lookupK A d) b
      (fun a ha => ⟨WFmap_lookup hA ha, zfMap_lookup hzA ha⟩)
      (WFmap_lookup hB hBl) (zfMap_lookup hzB hBl)
    constructor
    · rw [hch, hcm]
      show some (domFields (storeMergeDomain (lookupK A d) b)) =
        some (domFields (mergeDomainInto (lookupK A d) b))
      rw [heq.1]
    · intro e
      unfold senderAt
      rw [hch, hcm]
      exact heq.2 e

/-! ## Commutativity and associativity of the in-memory merge -/

theorem domFields_mDI (x : Option DomainData) (b : DomainData) :
    domFields (mergeDomainInto x b) =
      (baseTotal x + b.totalCount,
       memEarliest (baseEarliest x) b.earliestDate,
       memLatest (baseLatest x) b.latestDate) := by
  rw [domFields, mDI_total, mDI_earliest, mDI_latest]

theorem domFields_mDI_none (b : DomainData) :
    domFields (mergeDomainInto none b) = domFields b := by
  rw [domFields_mDI]
  simp only [baseTotal, baseEarliest, baseLatest, Nat.zero_add,
    memEarliest_none_left, memLatest_none_left, domFields]

theorem senders_mDI_none (b : DomainData) (hb : WFdomain b) (e : String) :
    lookupK (mergeDomainInto none b).senders e = lookupK b.senders e := by
  rw [mDI_senders none b hb e]
  cases h : lookupK b.senders e <;>
    simp [baseSenders, optMergeSender, mergeSenderInto_none]

theorem optMergeDomain_comm_pt (x y : Option DomainData)
    (hxW : ∀ a, x = some a → WFdomain a)
    (hyW : ∀ a, y = some a → WFdomain a) :
    (optMergeDomain x y).map domFields = (optMergeDomain y x).map domFields ∧
    ∀ e, (optMergeDomain x y).bind (fun dd => lookupK dd.senders e) =
      (optMergeDomain y x).bind (fun dd => lookupK dd.senders e) := by
  cases x with
  | none =>
    cases y with
    | none => exact ⟨rfl, fun e => rfl⟩
    | some b =>
      refine ⟨?_, ?_⟩
      · show some (domFields (mergeDomainInto none b)) = some (domFields b)
        rw [domFields_mDI_none]
      · intro e
        show lookupK (mergeDomainInto none b).senders e = lookupK b.senders e
        rw [senders_mDI_none b (hyW b rfl) e]
  | some a =>
    cases y with
    | none =>
      refine ⟨?_, ?_⟩
      · show some (domFields a) = some (domFields (mergeDomainInto none a))
        rw [domFields_mDI_none]
      · intro e
        show lookupK a.senders e = lookupK (mergeDomainInto none a).senders e
        rw [senders_mDI_none a (hxW a rfl) e]
    | some b =>
      refine ⟨?_, ?_⟩
      · show some (domFields (mergeDomainInto (some a) b)) =
          some (domFields (mergeDomainInto (some b) a))
        refine congrArg some ?_
        rw [domFields_mDI, domFields_mDI]
        simp only [baseTotal, baseEarliest, baseLatest]
        rw [Nat.add_comm a.totalCount b.totalCount,
          memEarliest_comm a.earliestDate b.earliestDate,
          memLatest_comm a.latestDate b.latestDate]
      · intro e
        show lookupK (mergeDomainInto (some a) b).senders e =
          lookupK (mergeDomainInto (some b) a).senders e
        rw [mDI_senders (some a) b (hyW b rfl) e,
          mDI_senders (some b) a (hxW a rfl) e]
        show optMergeSender (lookupK a.senders e) (lookupK b.senders e) =
          optMergeSender (lookupK b.senders e) (lookupK a.senders e)
        exact optMergeSender_comm _ _

theorem optMergeDomain_assoc_pt (x y z : Option DomainData)
    (hyW : ∀ a, y = some a → WFdomain a)
    (hzW : ∀ a, z = some a → WFdomain a) :
    (optMergeDomain (optMergeDomain x y) z).map domFields =
      (optMergeDomain x (optMergeDomain y z)).map domFields ∧
    ∀ e, (optMergeDomain (optMergeDomain x y) z).bind
        (fun dd => lookupK dd.senders e) =
      (optMergeDomain x (optMergeDomain y z)).bind
        (fun dd => lookupK dd.senders e) := by
  cases z with
  | none => exact ⟨rfl, fun e => rfl⟩
  | some c =>
    have hcW := hzW c rfl
    cases y with
    | none =>
      refine ⟨?_, ?_⟩
      · show some (domFields (mergeDomainInto x c)) =
          some (domFields (mergeDomainInto x (mergeDomainInto none c)))
        refine congrArg some ?_
        rw [domFields_mDI, domFields_mDI]
        simp only [baseTotal, baseEarliest, baseLatest, mDI_total,
          mDI_earliest, mDI_latest, Nat.zero_add, memEarliest_none_left,
          memLatest_none_left]
      · intro e
        show lookupK (mergeDomainInto x c).senders e =
          lookupK (mergeDomainInto x (mergeDomainInto none c)).senders e
        rw [mDI_senders x c hcW e,
          mDI_senders x (mergeDomainInto none c)
            (WFdomain_mDI none c (fun a ha => by cases ha)) e,
          senders_mDI_none c hcW e]
    | some b =>
      have hbW := hyW b rfl
      have hbcW : WFdomain (mergeDomainInto (some b) c) :=
        WFdomain_mDI (some b) c (fun a ha => by cases ha; exact hbW)
      refine ⟨?_, ?_⟩
      · show some (domFields (mergeDomainInto (some (mergeDomainInto x b)) c)) =
          some (domFields (mergeDomainInto x (mergeDomainInto (some b) c)))
        refine congrArg some ?_
        rw [domFields_mDI, domFields_mDI]
        simp only [baseTotal, baseEarliest, baseLatest, mDI_total,
          mDI_earliest, mDI_latest]
        rw [Nat.add_assoc, memEarliest_assoc, memLatest_assoc]
      · intro e
        show lookupK (mergeDomainInto (some (mergeDomainInto x b)) c).senders e =
          lookupK (mergeDomainInto x (mergeDomainInto (some b) c)).senders e
        rw [mDI_senders (some (mergeDomainInto x b)) c hcW e,
          mDI_senders x (mergeDomainInto (some b) c) hbcW e]
        show optMergeSender (lookupK (mergeDomainInto x b).senders e)
            (lookupK c.senders e) =
          optMergeSender (baseSenders x e)
            (lookupK (mergeDomainInto (some b) c).senders e)
        rw [mDI_senders x b hbW e, mDI_senders (some b) c hcW e]
        show optMergeSender
            (optMergeSender (baseSenders x e) (lookupK b.senders e))
            (lookupK c.senders e) =
          optMergeSender (baseSenders x e)
            (optMergeSender (lookupK b.senders e) (lookupK c.senders e))
        exact optMergeSender_assoc _ _ _

theorem mergeResults_comm {A B : DomainMap} (hA : WFmap A) (hB : WFmap B) :
    aggEquiv (mergeResults A B) (mergeResults B A) := by
  intro d
  have h := optMergeDomain_comm_pt (lookupK A d) (lookupK B d)
    (fun a ha => WFmap_lookup hA ha) (fun a ha => WFmap_lookup hB ha)
  constructor
  · rw [lookupK_mergeResults A B hB.1, lookupK_mergeResults B A hA.1]
    exact h.1
  · intro e
    unfold senderAt
    rw [lookupK_mergeResults A B hB.1, lookupK_mergeResults B A hA.1]
    exact h.2 e

theorem mergeResults_assoc {A B C : DomainMap} (hA : WFmap A) (hB : WFmap B)
    (hC : WFmap C) :
    aggEquiv (mergeResults (mergeResults A B) C)
      (mergeResults A (mergeResults B C)) := by
  intro d
  have h := optMergeDomain_assoc_pt (lookupK A d) (lookupK B d) (lookupK C d)
    (fun a ha => WFmap_lookup hB ha) (fun a ha => WFmap_lookup hC ha)
  have hBC : (keysOf (mergeResults B C)).Nodup :=
    (WFmap_mergeResults hB hC).1
  constructor
  · rw [lookupK_mergeResults (mergeResults A B) C hC.1,
      lookupK_mergeResults A B hB.1,
      lookupK_mergeResults A (mergeResults B C) hBC,
      lookupK_mergeResults B C hC.1]
    exact h.1
  · intro e
    unfold senderAt
    rw [lookupK_mergeResults (mergeResults A B) C hC.1,
      lookupK_mergeResults A B hB.1,
      lookupK_mergeResults A (mergeResults B C) hBC,
      lookupK_mergeResults B C hC.1]
    exact h.2 e


/-! ## Store-merge congruence and laws -/

theorem sMD_senders_some (a c : DomainData) (hc : WFdomain c) (e : String) :
    lookupK (storeMergeDomain (some a) c).senders e =
      match lookupK c.senders e with
      | none => lookupK a.senders e
      | some v => some (storeMergeSender (lookupK a.senders e) v) := by
  show lookupK (foldMerge a.senders c.senders storeMergeSender) e = _
  rw [lookupK_foldMerge _ _ _ hc]
  cases lookupK c.senders e <;> rfl

theorem storeMergeDomain_congr (x y : Option DomainData) (c : DomainData)
    (hcW : WFdomain c)
    (hf : x.map domFields = y.map domFields)
    (hs : ∀ e, x.bind (fun dd => lookupK dd.senders e) =
      y.bind (fun dd => lookupK dd.senders e)) :
    domFields (storeMergeDomain x c) = domFields (storeMergeDomain y c) ∧
    ∀ e, lookupK (storeMergeDomain x c).senders e =
      lookupK (storeMergeDomain y c).senders e := by
  cases x with
  | none =>
    cases y with
    | none => exact ⟨rfl, fun e => rfl⟩
    | some a => simp at hf
  | some a =>
    cases y with
    | none => simp at hf
    | some a' =>
      simp only [Option.map_some', Option.some.injEq] at hf
      have hsv : ∀ e, lookupK a.senders e = lookupK a'.senders e := fun e => hs e
      have ht : a.totalCount = a'.totalCount := congrArg Prod.fst hf
      have he : a.earliestDate = a'.earliestDate :=
        congrArg (fun p => p.2.1) hf
      have hl : a.latestDate = a'.latestDate := congrArg (fun p => p.2.2) hf
      constructor
      · show (a.totalCount + c.totalCount, storeDomEarliest a.earliestDate
            c.earliestDate, storeDomLatest a.latestDate c.latestDate) =
          (a'.totalCount + c.totalCount, storeDomEarliest a'.earliestDate
            c.earliestDate, storeDomLatest a'.latestDate c.latestDate)
        rw [ht, he, hl]
      · intro e
        rw [sMD_senders_some a c hcW e, sMD_senders_some a' c hcW e]
        cases lookupK c.senders e with
        | none => exact hsv e
        | some v => rw [hsv e]

theorem storeMergeDomain_congr_right (x : Option DomainData)
    (b b' : DomainData) (hbW : WFdomain b) (hbW' : WFdomain b')
    (hf : domFields b = domFields b')
    (hs : ∀ e, lookupK b.senders e = lookupK b'.senders e) :
    domFields (storeMergeDomain x b) = domFields (storeMergeDomain x b') ∧
    ∀ e, lookupK (storeMergeDomain x b).senders e =
      lookupK (storeMergeDomain x b').senders e := by
  cases x with
  | none => exact ⟨hf, hs⟩
  | some a =>
    have ht : b.totalCount = b'.totalCount := congrArg Prod.fst hf
    have he : b.earliestDate = b'.earliestDate := congrArg (fun p => p.2.1) hf
    have hl : b.latestDate = b'.latestDate := congrArg (fun p => p.2.2) hf
    constructor
    · show (a.totalCount + b.totalCount, storeDomEarliest a.earliestDate
          b.earliestDate, storeDomLatest a.latestDate b.latestDate) =
        (a.totalCount + b'.totalCount, storeDomEarliest a.earliestDate
          b'.earliestDate, storeDomLatest a.latestDate b'.latestDate)
      rw [ht, he, hl]
    · intro e
      rw [sMD_senders_some a b hbW e, sMD_senders_some a b' hbW' e, hs e]

theorem flush_congr_left {X Y : DomainMap} (C : DomainMap) (hC : WFmap C)
    (h : aggEquiv X Y) : aggEquiv (flush X C) (flush Y C) := by
  intro d
  obtain ⟨hf, hs⟩ := h d
  cases hCl : lookupK C d with
  | none =>
    have h1 : lookupK (flush X C) d = lookupK X d := by
      rw [lookupK_flush X C hC.1, hCl]
    have h2 : lookupK (flush Y C) d = lookupK Y d := by
      rw [lookupK_flush Y C hC.1, hCl]
    exact ⟨by rw [h1, h2]; exact hf,
      fun e => by unfold senderAt; rw [h1, h2]; exact hs e⟩
  | some c =>
    have h1 : lookupK (flush X C) d =
        some (storeMergeDomain (lookupK X d) c) := by
      rw [lookupK_flush X C hC.1, hCl]
    have h2 : lookupK (flush Y C) d =
        some (storeMergeDomain (lookupK Y d) c) := by
      rw [lookupK_flush Y C hC.1, hCl]
    have hcong := storeMergeDomain_congr (lookupK X d) (lookupK Y d) c
      (WFmap_lookup hC hCl) hf hs
    constructor
    · rw [h1, h2]
      show some (domFields (storeMergeDomain (lookupK X d) c)) =
        some (domFields (storeMergeDomain (lookupK Y d) c))
      rw [hcong.1]
    · intro e
      unfold senderAt
      rw [h1, h2]
      exact hcong.2 e

theorem flush_congr_right (A : DomainMap) {X Y : DomainMap} (hX : WFmap X)
    (hY : WFmap Y) (h : aggEquiv X Y) : aggEquiv (flush A X) (flush A Y) := by
  intro d
  obtain ⟨hf, hs⟩ := h d
  cases hXl : lookupK X d with
  | none =>
    cases hYl : lookupK Y d with
    | none =>
      have h1 : lookupK (flush A X) d = lookupK A d := by
        rw [lookupK_flush A X hX.1, hXl]
      have h2 : lookupK (flush A Y) d = lookupK A d := by
        rw [lookupK_flush A Y hY.1, hYl]
      exact ⟨by rw [h1, h2], fun e => by unfold senderAt; rw [h1, h2]⟩
    | some b' =>
      exfalso
      rw [hXl, hYl] at hf
      simp at hf
  | some b =>
    cases hYl : lookupK Y d with
    | none =>
      exfalso
      rw [hXl, hYl] at hf
      simp at hf
    | some b' =>
      rw [hXl, hYl] at hf
      simp only [Option.map_some', Option.some.injEq] at hf
      have hsv : ∀ e, lookupK b.senders e = lookupK b'.senders e := by
        intro e
        have hse := hs e
        unfold senderAt at hse
        rw [hXl, hYl] at hse
        exact hse
      have h1 : lookupK (flush A X) d =
          some (storeMergeDomain (lookupK A d) b) := by
        rw [lookupK_flush A X hX.1, hXl]
      have h2 : lookupK (flush A Y) d =
          some (storeMergeDomain (lookupK A d) b') := by
        rw [lookupK_flush A Y hY.1, hYl]
      have hcong := storeMergeDomain_congr_right (lookupK A d) b b'
        (WFmap_lookup hX hXl) (WFmap_lookup hY hYl) hf hsv
      constructor
      · rw [h1, h2]
        show some (domFields (storeMergeDomain (lookupK A d) b)) =
          some (domFields (storeMergeDomain (lookupK A d) b'))
        rw [hcong.1]
      · intro e
        unfold senderAt
        rw [h1, h2]
        exact hcong.2 e

theorem zfMap_flush {A B : DomainMap} (hA : WFmap A) (hB : WFmap B)
    (hzA : zfMap A) (hzB : zfMap B) : zfMap (flush A B) := by
  intro kv hkv
  have hl : lookupK (flush A B) kv.1 = some kv.2 :=
    lookupK_of_mem_nodup (WFmap_flush hA hB).1 hkv
  rw [lookupK_flush A B hB.1] at hl
  cases hBl : lookupK B kv.1 with
  | none =>
    rw [hBl] at hl
    exact zfMap_lookup hzA hl
  | some b =>
    rw [hBl] at hl
    simp only [Option.some.injEq] at hl
    rw [← hl]
    have hmem := storeMergeDomain_equiv_mem (lookupK A kv.1) b
      (fun a ha => ⟨WFmap_lookup hA ha, zfMap_lookup hzA ha⟩)
      (WFmap_lookup hB hBl) (zfMap_lookup hzB hBl)
    have hzm : zfDomain (mergeDomainInto (lookupK A kv.1) b) :=
      zfDomain_mDI (fun a ha => ⟨WFmap_lookup hA ha, zfMap_lookup hzA ha⟩)
        (WFmap_lookup hB hBl) (zfMap_lookup hzB hBl)
    have hfe : (storeMergeDomain (lookupK A kv.1) b).earliestDate =
        (mergeDomainInto (lookupK A kv.1) b).earliestDate :=
      congrArg (fun p => p.2.1) hmem.1
    have hfl : (storeMergeDomain (lookupK A kv.1) b).latestDate =
        (mergeDomainInto (lookupK A kv.1) b).latestDate :=
      congrArg (fun p => p.2.2) hmem.1
    refine ⟨?_, ?_, ?_⟩
    · rw [hfe]; exact hzm.1
    · rw [hfl]; exact hzm.2.1
    · intro sv hsv
      have hW : WFdomain (storeMergeDomain (lookupK A kv.1) b) :=
        WFdomain_sMD _ _ (fun a ha => WFmap_lookup hA ha) (WFmap_lookup hB hBl)
      have hls : lookupK (storeMergeDomain (lookupK A kv.1) b).senders sv.1 =
          some sv.2 := lookupK_of_mem_nodup hW hsv
      rw [hmem.2 sv.1] at hls
      exact zfDomain_lookup hzm hls

theorem flush_comm {A B : DomainMap} (hA : WFmap A) (hB : WFmap B)
    (hzA : zfMap A) (hzB : zfMap B) : aggEquiv (flush A B) (flush B A) :=
  aggEquiv_trans (flush_equiv_merge hA hB hzA hzB)
    (aggEquiv_trans (mergeResults_comm hA hB)
      (aggEquiv_symm (flush_equiv_merge hB hA hzB hzA)))

theorem flush_assoc {A B C : DomainMap} (hA : WFmap A) (hB : WFmap B)
    (hC : WFmap C) (hzA : zfMap A) (hzB : zfMap B) (hzC : zfMap C) :
    aggEquiv (flush (flush A B) C) (flush A (flush B C)) := by
  have s1 : aggEquiv (flush (flush A B) C) (flush (mergeResults A B) C) :=
    flush_congr_left C hC (flush_equiv_merge hA hB hzA hzB)
  have s2 : aggEquiv (flush (mergeResults A B) C)
      (mergeResults (mergeResults A B) C) :=
    flush_equiv_merge (WFmap_mergeResults hA hB) hC
      (zfMap_mergeResults hA hB hzA hzB) hzC
  have s3 : aggEquiv (mergeResults (mergeResults A B) C)
      (mergeResults A (mergeResults B C)) := mergeResults_assoc hA hB hC
  have s4 : aggEquiv (mergeResults A (mergeResults B C))
      (flush A (mergeResults B C)) :=
    aggEquiv_symm (flush_equiv_merge hA (WFmap_mergeResults hB hC) hzA
      (zfMap_mergeResults hB hC hzB hzC))
  have s5 : aggEquiv (flush A (mergeResults B C)) (flush A (flush B C)) :=
    flush_congr_right A (WFmap_mergeResults hB hC) (WFmap_flush hB hC)
      (aggEquiv_symm (flush_equiv_merge hB hC hzB hzC))
  exact aggEquiv_trans s1 (aggEquiv_trans s2 (aggEquiv_trans s3
    (aggEquiv_trans s4 s5)))

/-! ## Claim C1 -/

/-- Aggregate with an epoch-0 (`1970-01-01T00:00:00Z`) timestamp — a
value `new Date("Thu, 01 Jan 1970 00:00:00 GMT")` produces. -/
def cxStoreA : DomainMap :=
  [("d", { totalCount := 1
           senders := [("e", { count := 1, earliestDate := some 0 })]
           isPersonal := false
           earliestDate := some 0 })]

def cxStoreB : DomainMap :=
  [("d", { totalCount := 1
           senders := [("e", { count := 1 })]
           isPersonal := false })]

/-- C1 (counterexample): the claim asserts the merge law also for the
overflow store's merge-on-write, but the store treats a serialized
epoch-0 timestamp as absent (`0` is falsy), so flushing `cxStoreA` over
`cxStoreB` and the reverse disagree on the compared fields: one order
keeps the domain-level earliest bound `some 0` and drops the sender's,
the other does the opposite. -/
theorem c1_counterexample :
    ¬ aggEquiv (flush cxStoreA cxStoreB) (flush cxStoreB cxStoreA) :=
  fun h => absurd ((h "d").2 "e") (by decide)

/-- C1 (amended): the in-memory merge `mergeResults` is commutative and
associative on the compared fields for all wellformed aggregates; the
overflow store's merge-on-write `flush` is commutative and associative
likewise **provided no timestamp equals the serialized epoch `0`**
(which the store's truthiness checks treat as absent). -/
theorem c1_merge_commutative_associative :
    (∀ A B : DomainMap, WFmap A → WFmap B →
      aggEquiv (mergeResults A B) (mergeResults B A)) ∧
    (∀ A B C : DomainMap, WFmap A → WFmap B → WFmap C →
      aggEquiv (mergeResults (mergeResults A B) C)
        (mergeResults A (mergeResults B C))) ∧
    (∀ A B : DomainMap, WFmap A → WFmap B → zfMap A → zfMap B →
      aggEquiv (flush A B) (flush B A)) ∧
    (∀ A B C : DomainMap, WFmap A → WFmap B → WFmap C →
      zfMap A → zfMap B → zfMap C →
      aggEquiv (flush (flush A B) C) (flush A (flush B C))) :=
  ⟨fun _ _ hA hB => mergeResults_comm hA hB,
   fun _ _ _ hA hB hC => mergeResults_assoc hA hB hC,
   fun _ _ hA hB hzA hzB => flush_comm hA hB hzA hzB,
   fun _ _ _ hA hB hC hzA hzB hzC => flush_assoc hA hB hC hzA hzB hzC⟩

def wMergeA : DomainMap :=
  [("x.com", { totalCount := 2
               senders := [("a@x.com", { count := 2, earliestDate := some 100
                                         latestDate := some 300 })]
               isPersonal := false
               earliestDate := some 100
               latestDate := some 300 })]

def wMergeB : DomainMap :=
  [("x.com", { totalCount := 1
               senders := [("b@x.com", { count := 1, earliestDate := some 200
                                         latestDate := some 200 })]
               isPersonal := false
               earliestDate := some 200
               latestDate := some 200 }),
   ("y.org", { totalCount := 1
               senders := [("c@y.org", { count := 1 })]
               isPersonal := false })]

def wMergeC : DomainMap :=
  [("y.org", { totalCount := 3
               senders := [("c@y.org", { count := 3, earliestDate := some 50
                                         latestDate := some 400 })]
               isPersonal := false
               earliestDate := some 50
               latestDate := some 400 })]

/-- C1 (witness): the amended law applied at concrete zero-free
aggregates. -/
theorem c1_witness :
    WFmap wMergeA ∧ WFmap wMergeB ∧ WFmap wMergeC ∧
    zfMap wMergeA ∧ zfMap wMergeB ∧
    aggEquiv (mergeResults wMergeA wMergeB) (mergeResults wMergeB wMergeA) ∧
    aggEquiv (mergeResults (mergeResults wMergeA wMergeB) wMergeC)
      (mergeResults wMergeA (mergeResults wMergeB wMergeC)) ∧
    aggEquiv (flush wMergeA wMergeB) (flush wMergeB wMergeA) :=
  ⟨by decide, by decide, by decide, by decide, by decide,
   c1_merge_commutative_associative.1 wMergeA wMergeB (by decide) (by decide),
   c1_merge_commutative_associative.2.1 wMergeA wMergeB wMergeC
     (by decide) (by decide) (by decide),
   c1_merge_commutative_associative.2.2.1 wMergeA wMergeB
     (by decide) (by decide) (by decide) (by decide)⟩

/-! ## Claim C5 -/

theorem takeWhile_of_all {α : Type} {p : α → Bool} {l : List α}
    (h : ∀ c ∈ l, p c = true) : l.takeWhile p = l := by
  induction l with
  | nil => rfl
  | cons c t ih =>
    rw [List.takeWhile_cons, h c (List.mem_cons_self c t), if_pos rfl,
      ih (fun x hx => h x (List.mem_cons_of_mem c hx))]

theorem domScan_skip {l rest : List Char} (hl : ∀ c ∈ l, ¬(c = '@')) :
    domScan (l ++ rest) = domScan rest := by
  induction l with
  | nil => rfl
  | cons c t ih =>
    have hc : ¬(c = '@') := hl c (List.mem_cons_self c t)
    simp only [List.cons_append, domScan, if_neg hc]
    exact ih (fun x hx => hl x (List.mem_cons_of_mem c hx))

/-- C5 (amended): the recorded domain is everything after the **first**
`@` that is followed by at least one non-whitespace, non-`>` character,
up to the next whitespace or `>`, lower-cased — so for an address with
several `@`s the first one (with a non-empty capture) determines the
domain, and the capture itself runs through any later `@`s. -/
theorem c5_first_at_domain (l m t : List Char)
    (hl : ∀ c ∈ l, ¬(c = '@'))
    (hm : ¬(m = []))
    (hmok : ∀ c ∈ m, ¬(jsWs c = true ∨ c = '>'))
    (htok : ∀ c ∈ t, ¬(jsWs c = true ∨ c = '>')) :
    domainOfEmail (String.mk (l ++ '@' :: (m ++ '@' :: t))) =
      some (String.mk ((m ++ '@' :: t).map Char.toLower)) := by
  unfold domainOfEmail
  have hdata : (String.mk (l ++ '@' :: (m ++ '@' :: t))).data =
      l ++ '@' :: (m ++ '@' :: t) := rfl
  rw [hdata, domScan_skip hl]
  have hall : ∀ c ∈ m ++ '@' :: t,
      (fun d => decide ¬(jsWs d = true ∨ d = '>')) c = true := by
    intro c hc
    rcases List.mem_append.mp hc with h | h
    · exact decide_eq_true (hmok c h)
    · rcases List.mem_cons.mp h with h | h
      · subst h; decide
      · exact decide_eq_true (htok c h)
  have hcap : (m ++ '@' :: t).takeWhile
      (fun d => decide ¬(jsWs d = true ∨ d = '>')) = m ++ '@' :: t :=
    takeWhile_of_all hall
  simp only [domScan, if_pos rfl, hcap]
  have hne : (m ++ '@' :: t).isEmpty = false := by
    cases m with
    | nil => rfl
    | cons c t2 => rfl
  rw [hne]
  simp

/-- Modelled from the spec (§4.1) for comparison: "Address-domain
extraction takes everything after the **last** unescaped `@` up to the
next whitespace or `>`, lower-cased."  (The compared inputs contain no
escape characters.) -/
def lastAtSuffix : List Char → Option (List Char)
  | [] => none
  | c :: t =>
    match lastAtSuffix t with
    | some r => some r
    | none => if c = '@' then some t else none

/-- Modelled from the spec (§4.1); see `lastAtSuffix`. -/
def specLastAtDomain (email : String) : Option String :=
  (lastAtSuffix email.data).map
    (fun cs => String.mk
      ((cs.takeWhile (fun d => ¬(jsWs d ∨ d = '>'))).map Char.toLower))

/-- C5 (counterexample): for `a@b@c.com` the code records `b@c.com`
(first `@`), while the spec's last-`@` rule yields `c.com`. -/
theorem c5_counterexample :
    domainOfEmail "a@b@c.com" = some "b@c.com" ∧
    specLastAtDomain "a@b@c.com" = some "c.com" ∧
    ¬(("b@c.com" : String) = "c.com") :=
  ⟨by decide, by decide, by decide⟩

/-- C5 (witness): the amended rule at `a@b@c.com`. -/
theorem c5_witness :
    domainOfEmail (String.mk ("a".data ++ '@' :: ("b".data ++ '@' :: "c.com".data))) =
      some (String.mk (("b".data ++ '@' :: "c.com".data).map Char.toLower)) ∧
    String.mk ("a".data ++ '@' :: ("b".data ++ '@' :: "c.com".data)) = "a@b@c.com" ∧
    String.mk (("b".data ++ '@' :: "c.com".data).map Char.toLower) = "b@c.com" :=
  ⟨c5_first_at_domain "a".data "b".data "c.com".data
      (by decide) (by decide) (by decide) (by decide),
   by decide, by decide⟩

/-! ## Claim C4 -/

theorem fromColon_not_envelope {s : String}
    (h : strStarts s "From:" = true) : strStarts s "From " = false := by
  unfold strStarts at h ⊢
  have h5 : "From:".data = ['F', 'r', 'o', 'm', ':'] := rfl
  have h6 : "From ".data = ['F', 'r', 'o', 'm', ' '] := rfl
  rw [h5] at h
  rw [h6]
  rcases hs : s.data with _ | ⟨c1, _ | ⟨c2, _ | ⟨c3, _ | ⟨c4, _ | ⟨c5, rest⟩⟩⟩⟩⟩ <;>
      rw [hs] at h <;> simp [chStarts] at h ⊢
  intro _ _ _ _ hsp
  exact absurd (h.2.2.2.2.trans hsp.symm) (by decide)

/-- C4 (amended): while in the header state, every `From:` line with a
non-empty value **overwrites** the captured from-address, so the address
recorded for a message with several `From:` header lines is the value
of the **last** one, not the first. -/
theorem c4_last_from_wins (pd : String → Option Int) (st : ScanState)
    (line : String) (hin : st.inHeaders = true)
    (hfc : strStarts (strTrimEnd line) "From:" = true)
    (hne : ¬(strDropN (strTrimEnd line) 5 = "")) :
    (scanStep pd st line).currentFrom =
      some (parseFromValue (strTrim (strDropN (strTrimEnd line) 5))) := by
  simp only [scanStep]
  rw [fromColon_not_envelope hfc, hin, hfc]
  simp only [Bool.false_eq_true, if_false, if_true, if_neg hne]

def c4State : ScanState :=
  { domains := [], currentFrom := some "first@x.com", currentDate := none
    inHeaders := true, messageCount := 0 }

/-- C4 (witness): a second `From:` line replaces an already-captured
address. -/
theorem c4_witness :
    c4State.inHeaders = true ∧
    strStarts (strTrimEnd "From: second@y.com") "From:" = true ∧
    (scanStep (fun _ => none) c4State "From: second@y.com").currentFrom =
      some (parseFromValue (strTrim (strDropN (strTrimEnd "From: second@y.com") 5))) ∧
    parseFromValue (strTrim (strDropN (strTrimEnd "From: second@y.com") 5)) =
      "second@y.com" :=
  ⟨rfl, by decide,
   c4_last_from_wins (fun _ => none) c4State "From: second@y.com" rfl
     (by decide) (by decide),
   by decide⟩

/-- C4 (counterexample): a message with two `From:` headers is recorded
under the second address's domain (`y.com`), not the first's (`x.com`)
— the claim as stated says only the first is honored. -/
theorem c4_counterexample :
    (processBatch (fun _ => none)
      ["From a", "From: first@x.com", "From: second@y.com"]).1 =
      [("y.com", { totalCount := 1
                   senders := [("second@y.com", { count := 1 })]
                   isPersonal := false })] := by decide

/-! ## Ranked-output bridge lemmas -/

theorem entryToGroup_domain (kv : String × DomainData) :
    (entryToGroup kv).domain = kv.1 := rfl

theorem find?_map_entry (m : DomainMap) (d : String) :
    (m.map entryToGroup).find? (fun g => decide (g.domain = d)) =
      (lookupK m d).map (fun dd => entryToGroup (d, dd)) := by
  induction m with
  | nil => rfl
  | cons hd t ih =>
    obtain ⟨k, dd⟩ := hd
    by_cases hk : k = d
    · subst hk
      simp [List.find?, entryToGroup, lookupK]
    · simp [List.find?, entryToGroup, lookupK, hk, ih]

/-- `find?` by domain over the converted output is the map lookup. -/
theorem find?_convert (m : DomainMap) (hW : WFmap m) (d : String) :
    (convertToDomainGroups m).find? (fun g => decide (g.domain = d)) =
      (lookupK m d).map (fun dd => entryToGroup (d, dd)) := by
  unfold convertToDomainGroups
  have hperm := sortByDesc_perm (fun g => g.totalCount) (m.map entryToGroup)
  have hmapdom : (m.map entryToGroup).map (fun g => g.domain) = keysOf m := by
    rw [List.map_map]
    rfl
  have hnd : ((m.map entryToGroup).map (fun g => g.domain)).Nodup := by
    rw [hmapdom]; exact hW.1
  have hcount : (sortByDesc (fun g => g.totalCount) (m.map entryToGroup)).countP
      (fun g => decide (g.domain = d)) ≤ 1 := by
    rw [hperm.countP_eq]
    exact countP_le_one_of_nodup_keys (fun g : DomainGroup => g.domain) _ hnd d
  rw [find?_congr_perm hperm hcount]
  exact find?_map_entry m d

theorem find?_map_sender (l : List (String × SenderData)) (e : String) :
    (l.map senderOut).find? (fun sv => decide (sv.email = e)) =
      (lookupK l e).map (fun sv => senderOut (e, sv)) := by
  induction l with
  | nil => rfl
  | cons hd t ih =>
    obtain ⟨k, sv⟩ := hd
    by_cases hk : k = e
    · subst hk
      simp [List.find?, senderOut, lookupK]
    · simp [List.find?, senderOut, lookupK, hk, ih]

/-- `find?` by email over a converted (sorted) sender list is the inner
map lookup. -/
theorem find?_senders (dd : DomainData) (hW : WFdomain dd) (e : String) :
    (sortByDesc (fun sv => sv.count) (dd.senders.map senderOut)).find?
      (fun sv => decide (sv.email = e)) =
      (lookupK dd.senders e).map (fun sv => senderOut (e, sv)) := by
  have hperm := sortByDesc_perm (fun sv => sv.count) (dd.senders.map senderOut)
  have hmapdom : (dd.senders.map senderOut).map (fun sv => sv.email) =
      keysOf dd.senders := by
    rw [List.map_map]
    rfl
  have hnd : ((dd.senders.map senderOut).map (fun sv => sv.email)).Nodup := by
    rw [hmapdom]; exact hW
  have hcount : (sortByDesc (fun sv => sv.count)
      (dd.senders.map senderOut)).countP (fun sv => decide (sv.email = e)) ≤ 1 := by
    rw [hperm.countP_eq]
    exact countP_le_one_of_nodup_keys (fun sv : Sender => sv.email) _ hnd e
  rw [find?_congr_perm hperm hcount]
  exact find?_map_sender dd.senders e

/-! ## Claim C6 -/

def cxConvA : DomainMap :=
  [("x.com", { totalCount := 1
               senders := [("a@x.com", { count := 1, earliestDate := some 5
                                         latestDate := some 10 })]
               isPersonal := false
               earliestDate := some 5
               latestDate := some 10 })]

def cxConvB : DomainMap :=
  [("x.com", { totalCount := 1
               senders := [("a@x.com", { count := 1, earliestDate := some 6
                                         latestDate := some 10 })]
               isPersonal := false
               earliestDate := some 5
               latestDate := some 10 })]

/-- C6 (counterexample): two internal aggregates that differ only in a
sender's earliest-seen timestamp convert to the **same** output — the
per-sender first-seen bound is dropped by `convertToDomainGroups`
(`Sender` has only `lastEmailDate`), contradicting the claim that every
sender entry carries both bounds. -/
theorem c6_counterexample :
    convertToDomainGroups cxConvA = convertToDomainGroups cxConvB ∧
    ¬(cxConvA = cxConvB) :=
  ⟨by decide, by decide⟩

/-- C6 (amended): every sender entry of the final output carries the
sender's count and its latest-seen timestamp (as `lastEmailDate`); the
per-sender earliest-seen timestamp is dropped at conversion, and only
the domain-level bounds survive in full. -/
theorem c6_sender_fields (m : DomainMap) (hW : WFmap m) (d : String)
    (dd : DomainData) (hl : lookupK m d = some dd) :
    ∃ g : DomainGroup,
      (convertToDomainGroups m).find? (fun g => decide (g.domain = d)) =
        some g ∧
      g.totalCount = dd.totalCount ∧ g.earliestDate = dd.earliestDate ∧
      g.latestDate = dd.latestDate ∧
      ∀ (e : String) (sv : SenderData), lookupK dd.senders e = some sv →
        g.senders.find? (fun s => decide (s.email = e)) =
          some { email := e, count := sv.count
                 lastEmailDate := sv.latestDate } := by
  refine ⟨entryToGroup (d, dd), ?_, rfl, rfl, rfl, ?_⟩
  · rw [find?_convert m hW d, hl]
    rfl
  · intro e sv hsv
    have hfs := find?_senders dd (WFmap_lookup hW hl) e
    have hset : (entryToGroup (d, dd)).senders =
        sortByDesc (fun sv => sv.count) (dd.senders.map senderOut) := rfl
    rw [hset, hfs, hsv]
    rfl

/-- C6 (witness): the amended statement at a concrete aggregate. -/
theorem c6_witness :
    WFmap cxConvA ∧
    ∃ g : DomainGroup,
      (convertToDomainGroups cxConvA).find?
        (fun g => decide (g.domain = "x.com")) = some g ∧
      g.totalCount = 1 ∧ g.earliestDate = some 5 ∧ g.latestDate = some 10 ∧
      ∀ (e : String) (sv : SenderData),
        lookupK [("a@x.com", { count := 1, earliestDate := some 5
                               latestDate := some 10 : SenderData })] e =
          some sv →
        g.senders.find? (fun s => decide (s.email = e)) =
          some { email := e, count := sv.count
                 lastEmailDate := sv.latestDate } :=
  ⟨by decide,
   c6_sender_fields cxConvA (by decide) "x.com"
     { totalCount := 1
       senders := [("a@x.com", { count := 1, earliestDate := some 5
                                 latestDate := some 10 })]
       isPersonal := false
       earliestDate := some 5
       latestDate := some 10 } (by decide)⟩

/-! ## Claim C9 -/

theorem consolidate_inv (groups : List DomainGroup)
    (acc : List (String × DomainGroup))
    (hacc : ∀ kv ∈ acc, kv.2.domain = kv.1 ∧
      kv.2.isPersonal = PERSONAL_DOMAINS.contains kv.1) :
    ∀ kv ∈ groups.foldl consolidateStep acc, kv.2.domain = kv.1 ∧
      kv.2.isPersonal = PERSONAL_DOMAINS.contains kv.1 := by
  induction groups generalizing acc with
  | nil => exact hacc
  | cons g t ih =>
    rw [List.foldl_cons]
    apply ih
    intro kv hkv
    rcases mem_setK hkv with h | h
    · exact hacc _ h
    · rw [h]
      cases hlk : lookupK acc (rootDomainOf g.domain) with
      | none =>
        simp [consolidateStep, hlk]
      | some rg =>
        have hrg := hacc _ (lookupK_pair_mem hlk)
        simp only [consolidateStep, hlk, Option.getD_some]
        exact ⟨hrg.1, hrg.2⟩

/-- C9 (amended): with subdomain joining enabled, the `isPersonal` flag
of every output group is the **membership test of its (root) domain**
against the personal-provider set — fixed when the root entry is first
created and never taken from any merged group. -/
theorem c9_isPersonal_recomputed (raw : List DomainGroup)
    (f : FilterOptions) (hj : f.joinSubdomains = true) :
    ∀ g ∈ filteredGroups raw f,
      g.isPersonal = PERSONAL_DOMAINS.contains g.domain := by
  intro g hg
  unfold filteredGroups at hg
  by_cases hr : raw.length = 0
  · rw [if_pos hr] at hg
    cases hg
  · rw [if_neg hr, hj] at hg
    simp only [if_true] at hg
    have hg2 : g ∈ consolidate (raw.filter
        (fun g => !excludedBy f g && dateFilterOk f g)) :=
      (sortByDesc_perm _ _).mem_iff.mp hg
    unfold consolidate at hg2
    rcases List.mem_map.mp hg2 with ⟨kv, hkv, hkveq⟩
    have hinv := consolidate_inv _ [] (fun kv h => by cases h) kv hkv
    rw [← hkveq, hinv.1]
    exact hinv.2

def cxG1 : DomainGroup :=
  { domain := "mail.gmail.com", totalCount := 2, senders := []
    isPersonal := false }

def cxG2 : DomainGroup :=
  { domain := "x.gmail.com", totalCount := 1, senders := []
    isPersonal := false }

def cxFilters : FilterOptions :=
  { customExcludedDomains := [], joinSubdomains := true
    dateRange := { start := none, stop := none }, minMessageCount := 0 }

/-- C9 (counterexample): two groups with `isPersonal = false` collapse
into root `gmail.com`, and the merged group's flag is `true` — the
membership test of the root domain — not the last-merged group's
`false`mark, contradicting the claim as stated. -/
theorem c9_counterexample :
    filteredGroups [cxG1, cxG2] cxFilters =
      [{ domain := "gmail.com", totalCount := 3, senders := []
         isPersonal := true }] ∧
    cxG2.isPersonal = false :=
  ⟨by decide, rfl⟩

/-- C9 (witness): the amended statement applied at the concrete merged
output. -/
theorem c9_witness :
    cxFilters.joinSubdomains = true ∧
    ({ domain := "gmail.com", totalCount := 3, senders := []
       isPersonal := true : DomainGroup } ∈ filteredGroups [cxG1, cxG2] cxFilters) ∧
    ({ domain := "gmail.com", totalCount := 3, senders := []
       isPersonal := true : DomainGroup }.isPersonal =
      PERSONAL_DOMAINS.contains "gmail.com") :=
  ⟨rfl, by decide,
   c9_isPersonal_recomputed [cxG1, cxG2] cxFilters rfl
     { domain := "gmail.com", totalCount := 3, senders := []
       isPersonal := true } (by decide)⟩

/-! ## Claim C10 -/

/-- C10: `filteredGroups` never consults `minMessageCount` — two filter
specifications that differ only in that field produce identical
filtered-and-consolidated output on every raw result. -/
theorem c10_minMessageCount_no_effect (raw : List DomainGroup)
    (f : FilterOptions) (m m' : Nat) :
    filteredGroups raw { f with minMessageCount := m } =
      filteredGroups raw { f with minMessageCount := m' } := rfl

/-! ## Run-loop control flow -/

theorem spillLoop_finishes (cfg : RunConfig) (pd : String → Option Int)
    (hcan : cfg.cancelAt = none) (batches : List (List String)) :
    ∀ (i fc : Nat) (acc store : DomainMap),
      ∃ acc' store' fc',
        spillLoop cfg pd batches i fc acc store =
          LoopOut.finished acc' store' fc' := by
  induction batches with
  | nil => exact fun i fc acc store => ⟨acc, store, fc, rfl⟩
  | cons lines rest ih =>
    intro i fc acc store
    have hobs : cancelObserved cfg i = false := by
      unfold cancelObserved
      rw [hcan]
    unfold spillLoop
    rw [hobs]
    simp only [Bool.false_eq_true, if_false]
    split
    · split
      · exact ih (i + 1) (fc + 1) _ store
      · exact ih (i + 1) (fc + 1) [] _
    · exact ih (i + 1) fc _ store

theorem spillLoop_cancels (cfg : RunConfig) (pd : String → Option Int)
    {j : Nat} (hcan : cfg.cancelAt = some j) (batches : List (List String)) :
    ∀ (i fc : Nat) (acc store : DomainMap), ¬(batches = []) →
      j < i + batches.length →
      ∃ st, spillLoop cfg pd batches i fc acc store = LoopOut.cancelled st := by
  induction batches with
  | nil => exact fun i fc acc store hne _ => absurd rfl hne
  | cons lines rest ih =>
    intro i fc acc store _ hj
    by_cases hobs : j ≤ i
    · refine ⟨store, ?_⟩
      unfold spillLoop
      have : cancelObserved cfg i = true := by
        unfold cancelObserved
        rw [hcan]
        exact decide_eq_true hobs
      rw [this]
      simp
    · have hrest : ¬(rest = []) := by
        intro h
        rw [h] at hj
        simp at hj
        omega
      have hj2 : j < (i + 1) + rest.length := by
        simp at hj
        omega
      have hobs2 : cancelObserved cfg i = false := by
        unfold cancelObserved
        rw [hcan]
        simp
        omega
      unfold spillLoop
      rw [hobs2]
      simp only [Bool.false_eq_true, if_false]
      split
      · split
        · exact ih (i + 1) (fc + 1) _ store hrest hj2
        · exact ih (i + 1) (fc + 1) [] _ hrest hj2
      · exact ih (i + 1) fc _ store hrest hj2

/-! ## Claim C7 -/

/-- C7 (amended): the overflow store is cleared at run start (the run's
result never depends on what a prior run left in the store) and again at
the end of every **successful** run; a **cancelled** run returns the
empty result **without clearing** — the store is left exactly as it was
when the cancellation was observed, to be discarded only by the next
run's initial clear. -/
theorem c7_store_clearing :
    (∀ cfg pd s1 s2 batches,
      process cfg pd s1 batches = process cfg pd s2 batches) ∧
    (∀ cfg pd init batches, cfg.cancelAt = none → cfg.failFlushes = [] →
      (process cfg pd init batches).store = []) ∧
    (∀ cfg pd init batches j, cfg.cancelAt = some j → j < batches.length →
      (process cfg pd init batches).output = Except.ok [] ∧
      ∀ st, spillLoop cfg pd batches 0 0 [] [] = LoopOut.cancelled st →
        (process cfg pd init batches).store = st) := by
  refine ⟨fun cfg pd s1 s2 batches => rfl, ?_, ?_⟩
  · intro cfg pd init batches hcan hff
    obtain ⟨acc', store', fc', hloop⟩ :=
      spillLoop_finishes cfg pd hcan batches 0 0 [] []
    unfold process
    rw [hloop]
    simp only [hff, List.not_mem_nil, if_false]
    split
    · rfl
    · rfl
  · intro cfg pd init batches j hcan hj
    have hne : ¬(batches = []) := by
      intro h
      rw [h] at hj
      simp at hj
    obtain ⟨st, hloop⟩ := spillLoop_cancels cfg pd hcan batches 0 0 [] [] hne
      (by simpa using hj)
    constructor
    · unfold process
      rw [hloop]
    · intro st2 hloop2
      unfold process
      rw [hloop2]

def c7Cfg : RunConfig :=
  { maxAccumulatedDomains := 1, maxAccumulatedSenders := 5000
    cancelAt := some 1, failFlushes := [] }

def c7Junk : DomainMap :=
  [("junk", { totalCount := 5, senders := [], isPersonal := false })]

def c7Batches : List (List String) :=
  [["From a", "From: a@x.com"], ["From b", "From: c@z.org"]]

/-- C7 (counterexample): a run cancelled after its first flush returns
the empty result but leaves the flushed `x.com` data in the overflow
store — the claim that the store is cleared by the end of every
cancelled run is false. -/
theorem c7_counterexample :
    (process c7Cfg (fun _ => none) [] c7Batches).output = Except.ok [] ∧
    ¬((process c7Cfg (fun _ => none) [] c7Batches).store = []) := by
  constructor
  · rfl
  · intro h
    have : (process c7Cfg (fun _ => none) [] c7Batches).store =
        [("x.com", { totalCount := 1
                     senders := [("a@x.com", { count := 1 })]
                     isPersonal := false })] := by decide
    rw [this] at h
    cases h

/-- C7 (witness): the amended statement at concrete runs. -/
theorem c7_witness :
    ((process { } (fun _ => none) c7Junk [["From a", "From: a@x.com"]]) =
      (process { } (fun _ => none) [] [["From a", "From: a@x.com"]])) ∧
    ({ } : RunConfig).cancelAt = none ∧
    (process { } (fun _ => none) [] [["From a", "From: a@x.com"]]).store = [] ∧
    c7Cfg.cancelAt = some 1 ∧
    (process c7Cfg (fun _ => none) [] c7Batches).output = Except.ok [] :=
  ⟨c7_store_clearing.1 { } (fun _ => none) _ [] [["From a", "From: a@x.com"]],
   rfl,
   c7_store_clearing.2.1 { } (fun _ => none) [] [["From a", "From: a@x.com"]]
     rfl rfl,
   rfl,
   (c7_store_clearing.2.2 c7Cfg (fun _ => none) [] c7Batches 1 rfl
     (by decide)).1⟩

/-! ## Claim C8 -/

/-- C8 (amended): threshold-triggered flush failures are caught and the
run still returns a merged result, but the **final** flush of residual
in-memory data is not protected: when it fails the whole run aborts with
the store-write error instead of returning a result. -/
theorem c8_flush_failure (cfg : RunConfig) (pd : String → Option Int)
    (init : DomainMap) (batches : List (List String))
    (hcan : cfg.cancelAt = none) :
    ((process cfg pd init batches).finalFlushFailed = false →
      ∃ gs, (process cfg pd init batches).output = Except.ok gs) ∧
    ((process cfg pd init batches).finalFlushFailed = true →
      (process cfg pd init batches).output =
        Except.error RunError.storeWriteFailure) := by
  obtain ⟨acc', store', fc', hloop⟩ :=
    spillLoop_finishes cfg pd hcan batches 0 0 [] []
  have hpr : process cfg pd init batches =
      (if acc'.length ≠ 0 then
        if fc' ∈ cfg.failFlushes then
          { output := Except.error RunError.storeWriteFailure, store := store'
            finalFlushFailed := true }
        else
          { output := Except.ok (convertToDomainGroups
              (loadAll (flush store' acc'))), store := []
            finalFlushFailed := false }
      else
        { output := Except.ok (convertToDomainGroups (loadAll store'))
          store := [], finalFlushFailed := false }) := by
    unfold process
    rw [hloop]
  rw [hpr]
  by_cases hlen : acc'.length ≠ 0
  · rw [if_pos hlen]
    by_cases hmem : fc' ∈ cfg.failFlushes
    · rw [if_pos hmem]
      exact ⟨fun h => Bool.noConfusion h, fun _ => rfl⟩
    · rw [if_neg hmem]
      exact ⟨fun _ => ⟨_, rfl⟩, fun h => Bool.noConfusion h⟩
  · rw [if_neg hlen]
    exact ⟨fun _ => ⟨_, rfl⟩, fun h => Bool.noConfusion h⟩

def c8Cfg : RunConfig := { failFlushes := [0] }

/-- C8 (counterexample): with the run's only flush — the final flush of
residual data — failing, the run aborts with the store-write error
instead of returning a merged result: the failure is fatal, contradicting
the claim that flush failures are non-fatal for every flush. -/
theorem c8_counterexample :
    (process c8Cfg (fun _ => none) [] [["From a", "From: a@x.com"]]).output =
      Except.error RunError.storeWriteFailure ∧
    (process c8Cfg (fun _ => none) [] [["From a", "From: a@x.com"]]).finalFlushFailed
      = true :=
  ⟨rfl, by decide⟩

def c8CfgOk : RunConfig :=
  { maxAccumulatedDomains := 1, maxAccumulatedSenders := 5000
    cancelAt := none, failFlushes := [0] }

def c8Batches : List (List String) :=
  [["From a", "From: a@x.com"], ["From b", "From: c@z.org"]]

/-- C8 (witness): a run whose first (threshold) flush fails but whose
later flush succeeds still returns a result. -/
theorem c8_witness :
    c8CfgOk.cancelAt = none ∧
    (process c8CfgOk (fun _ => none) [] c8Batches).finalFlushFailed = false ∧
    ∃ gs, (process c8CfgOk (fun _ => none) [] c8Batches).output =
      Except.ok gs :=
  ⟨rfl, by decide,
   (c8_flush_failure c8CfgOk (fun _ => none) [] c8Batches rfl).1 (by decide)⟩

/-! ## Claim C3: counting machinery -/

/-- Sum of per-sender counts of one domain record. -/
def senderCountSum (dd : DomainData) : Nat :=
  (dd.senders.map (fun kv => kv.2.count)).sum

/-- The claim's invariant: `totalCount` equals the sum of the senders'
counts. -/
def countsOKdomain (dd : DomainData) : Prop :=
  dd.totalCount = senderCountSum dd

def countsOKmap (m : DomainMap) : Prop := ∀ kv ∈ m, countsOKdomain kv.2

instance (dd : DomainData) : Decidable (countsOKdomain dd) := by
  unfold countsOKdomain; infer_instance

instance (m : DomainMap) : Decidable (countsOKmap m) := by
  unfold countsOKmap; infer_instance

/-- Total message count held by an aggregate. -/
def sumTotals (m : DomainMap) : Nat := sumBy (fun dd => dd.totalCount) m

/-- The from-address scanner state stripped to what determines which
messages are counted: the captured address, the header flag, and the
sequence of addresses flushed so far.  This is the claim-side counting
device; its transitions mirror `scanStep`'s `From `/`From:`/empty-line
handling exactly and ignore dates and aggregation. -/
structure FromScan where
  cur : Option String
  inHeaders : Bool
  outs : List String
deriving DecidableEq, Repr

/-- What `flushCurrent` emits: the pending truthy address, if any. -/
def fromOuts (st : FromScan) : List String :=
  match st.cur with
  | some f => if f = "" then st.outs else st.outs ++ [f]
  | none => st.outs

def fromStep (st : FromScan) (rawLine : String) : FromScan :=
  let line := strTrimEnd rawLine
  if strStarts line "From " then
    { cur := none, inHeaders := true, outs := fromOuts st }
  else if st.inHeaders then
    if strStarts line "From:" then
      let rest := strDropN line 5
      if rest = "" then st
      else { st with cur := some (parseFromValue (strTrim rest)) }
    else if strStarts line "Date:" then st
    else if line = "" then { st with inHeaders := false }
    else st
  else st

/-- The from-addresses the scanner flushes over a batch (the batch's
messages with a truthy captured `From:` value). -/
def capturedFroms (lines : List String) : List String :=
  fromOuts (lines.foldl fromStep
    { cur := none, inHeaders := false, outs := [] })

/-- A from-address whose domain pattern matches (an `@` followed by a
non-whitespace, non-`>` character). -/
def domainMatched (f : String) : Bool := (domainOfEmail f).isSome

/-- Number of messages in a batch whose `From:` value yields a domain. -/
def matchedMessages (lines : List String) : Nat :=
  (capturedFroms lines).countP domainMatched

theorem sumBy_setK_total {doms : DomainMap} {fd : String} {w : DomainData}
    (hl : lookupK doms fd = some w) (d1 : DomainData)
    (hd : d1.totalCount = w.totalCount + 1) :
    sumBy (fun dd => dd.totalCount) (setK doms fd d1) =
      sumBy (fun dd => dd.totalCount) doms + 1 := by
  have h := sumBy_setK_present (fun dd => dd.totalCount) hl d1
  rw [hd] at h
  omega

theorem sumTotals_addRecord (doms : DomainMap) (email : String)
    (date : Option Int) :
    sumTotals (addRecord doms email date) =
      sumTotals doms + (if domainMatched email then 1 else 0) := by
  cases hdom : domainOfEmail email with
  | none =>
    have hm : domainMatched email = false := by
      unfold domainMatched
      rw [hdom]
      rfl
    simp only [addRecord, hdom, hm, Bool.false_eq_true, if_false, Nat.add_zero]
  | some fd =>
    have hm : domainMatched email = true := by
      unfold domainMatched
      rw [hdom]
      rfl
    simp only [addRecord, hdom, hm, eq_self_iff_true, if_true]
    cases hl : lookupK doms fd with
    | none =>
      simp only [hl, Option.getD_none]
      unfold sumTotals
      rw [sumBy_setK_absent (fun dd => dd.totalCount) hl]
    | some w =>
      simp only [hl, Option.getD_some]
      unfold sumTotals
      exact sumBy_setK_total hl _ rfl

/-- Flushing the pending message preserves the count coupling. -/
theorem flush_outs_rel (st : ScanState) (fs : FromScan)
    (h1 : st.currentFrom = fs.cur)
    (h3 : sumTotals st.domains = fs.outs.countP domainMatched) :
    sumTotals (flushCurrent st).domains =
      (fromOuts fs).countP domainMatched := by
  unfold flushCurrent fromOuts
  rw [h1]
  cases fs.cur with
  | none => exact h3
  | some f =>
    by_cases hf : f = ""
    · subst hf
      simpa using h3
    · have hgoal : sumTotals (addRecord st.domains f st.currentDate) =
          List.countP domainMatched (fs.outs ++ [f]) := by
        rw [sumTotals_addRecord, h3, List.countP_append]
        simp [List.countP_cons]
      simpa [hf] using hgoal

/-- One scanner step preserves the coupling with the counting scan. -/
theorem scanStep_fromStep_rel (pd : String → Option Int) (st : ScanState)
    (fs : FromScan) (line : String)
    (h1 : st.currentFrom = fs.cur) (h2 : st.inHeaders = fs.inHeaders)
    (h3 : sumTotals st.domains = fs.outs.countP domainMatched) :
    (scanStep pd st line).currentFrom = (fromStep fs line).cur ∧
    (scanStep pd st line).inHeaders = (fromStep fs line).inHeaders ∧
    sumTotals (scanStep pd st line).domains =
      (fromStep fs line).outs.countP domainMatched := by
  refine ⟨?_, ?_, ?_⟩ <;>
    (simp only [scanStep, fromStep]
     rw [h2]
     split_ifs) <;>
    try rfl
  all_goals try exact h1
  all_goals try exact h2
  all_goals try exact h3
  all_goals try exact flush_outs_rel st fs h1 h3
  all_goals
    cases pd (strTrim (strDropN (strTrimEnd line) 5)) <;>
      (try split) <;> simp [h1, h2, h3]

theorem fold_fromStep_rel (pd : String → Option Int) (lines : List String) :
    ∀ (st : ScanState) (fs : FromScan),
      st.currentFrom = fs.cur → st.inHeaders = fs.inHeaders →
      sumTotals st.domains = fs.outs.countP domainMatched →
      (lines.foldl (scanStep pd) st).currentFrom =
        (lines.foldl fromStep fs).cur ∧
      (lines.foldl (scanStep pd) st).inHeaders =
        (lines.foldl fromStep fs).inHeaders ∧
      sumTotals (lines.foldl (scanStep pd) st).domains =
        (lines.foldl fromStep fs).outs.countP domainMatched := by
  induction lines with
  | nil => exact fun st fs h1 h2 h3 => ⟨h1, h2, h3⟩
  | cons line rest ih =>
    intro st fs h1 h2 h3
    have hstep := scanStep_fromStep_rel pd st fs line h1 h2 h3
    exact ih _ _ hstep.1 hstep.2.1 hstep.2.2

/-- A batch's total message count equals the number of its messages
whose from-address yields a domain. -/
theorem processBatch_sum (pd : String → Option Int) (lines : List String) :
    sumTotals (processBatch pd lines).1 = matchedMessages lines := by
  unfold processBatch matchedMessages capturedFroms
  have hfold := fold_fromStep_rel pd lines initialScanState
    { cur := none, inHeaders := false, outs := [] } rfl rfl
    (by simp [initialScanState, sumTotals, sumBy])
  set st := lines.foldl (scanStep pd) initialScanState
  set fs := lines.foldl fromStep { cur := none, inHeaders := false, outs := [] }
  show sumTotals (flushCurrent st).domains = (fromOuts fs).countP domainMatched
  unfold flushCurrent fromOuts
  rw [hfold.1]
  cases fs.cur with
  | none => exact hfold.2.2
  | some f =>
    by_cases hf : f = ""
    · simp only [hf, if_pos rfl]
      exact hfold.2.2
    · simp only [if_neg hf]
      rw [sumTotals_addRecord, hfold.2.2, List.countP_append]
      simp [List.countP_cons]

/-! ## Scanner state invariants -/

theorem addRecord_WF {doms : DomainMap} (email : String) (date : Option Int)
    (h : WFmap doms) : WFmap (addRecord doms email date) := by
  unfold addRecord
  cases hdom : domainOfEmail email with
  | none => exact h
  | some fd =>
    dsimp only
    refine ⟨nodup_keysOf_setK _ _ _ h.1, ?_⟩
    intro kv hkv
    rcases mem_setK hkv with hm | hm
    · exact h.2 _ hm
    · rw [hm]
      show WFdomain _
      unfold WFdomain
      dsimp only
      apply nodup_keysOf_setK
      cases hl : lookupK doms fd with
      | none => simp [keysOf]
      | some w => exact h.2 _ (lookupK_pair_mem hl)

theorem mapSum_count_setK_incr (sd : List (String × SenderData))
    (email : String) (s1 : SenderData)
    (hcount : s1.count = ((lookupK sd email).getD { count := 0 }).count + 1) :
    ((setK sd email s1).map (fun kv => kv.2.count)).sum =
      (sd.map (fun kv => kv.2.count)).sum + 1 := by
  cases hl : lookupK sd email with
  | none =>
    have h := sumBy_setK_absent (fun sv => sv.count) hl s1
    rw [hl] at hcount
    simp only [Option.getD_none] at hcount
    show sumBy (fun sv => sv.count) (setK sd email s1) =
      sumBy (fun sv => sv.count) sd + 1
    rw [h, hcount]
  | some s0 =>
    have h := sumBy_setK_present (fun sv => sv.count) hl s1
    rw [hl] at hcount
    simp only [Option.getD_some] at hcount
    rw [hcount] at h
    show sumBy (fun sv => sv.count) (setK sd email s1) =
      sumBy (fun sv => sv.count) sd + 1
    omega

theorem addRecord_counts {doms : DomainMap} (email : String)
    (date : Option Int) (h : countsOKmap doms) :
    countsOKmap (addRecord doms email date) := by
  unfold addRecord
  cases hdom : domainOfEmail email with
  | none => exact h
  | some fd =>
    dsimp only
    intro kv hkv
    rcases mem_setK hkv with hm | hm
    · exact h _ hm
    · have hdg : countsOKdomain ((lookupK doms fd).getD
          { totalCount := 0, senders := []
            isPersonal := PERSONAL_DOMAINS.contains fd }) := by
        cases hl : lookupK doms fd with
        | none => simp [countsOKdomain, senderCountSum, sumBy]
        | some w => exact h _ (lookupK_pair_mem hl)
      rw [hm]
      show countsOKdomain _
      unfold countsOKdomain senderCountSum
      dsimp only
      rw [mapSum_count_setK_incr]
      · exact congrArg (fun n => n + 1) hdg
      · cases date <;> rfl

/-- Generic preservation of a domains-invariant `P` (closed under
`addRecord` at dates satisfying `Q`) across the scanner. -/
theorem flushCurrent_inv (P : DomainMap → Prop) (Q : Option Int → Prop)
    (hP : ∀ doms email date, P doms → Q date → P (addRecord doms email date))
    (st : ScanState) (hd : P st.domains) (hq : Q st.currentDate) :
    P (flushCurrent st).domains := by
  unfold flushCurrent
  split
  · split
    · exact hd
    · exact hP _ _ _ hd hq
  · exact hd

theorem scanStep_inv (pd : String → Option Int) (P : DomainMap → Prop)
    (Q : Option Int → Prop)
    (hP : ∀ doms email date, P doms → Q date → P (addRecord doms email date))
    (hQnone : Q none) (hQpd : ∀ s t, pd s = some t → Q (some t))
    (st : ScanState) (line : String) (hd : P st.domains)
    (hq : Q st.currentDate) :
    P (scanStep pd st line).domains ∧ Q (scanStep pd st line).currentDate := by
  simp only [scanStep]
  split_ifs <;> try exact ⟨hd, hq⟩
  · exact ⟨flushCurrent_inv P Q hP st hd hq, hQnone⟩
  · cases hpd : pd (strTrim (strDropN (strTrimEnd line) 5)) with
    | none => exact ⟨hd, hq⟩
    | some t => exact ⟨hd, hQpd _ _ hpd⟩
  · cases hpd : pd (strTrim (strDropN (strTrimEnd line) 5)) with
    | none => exact ⟨hd, hq⟩
    | some t => exact ⟨hd, hq⟩

theorem processBatch_inv (pd : String → Option Int) (P : DomainMap → Prop)
    (Q : Option Int → Prop)
    (hP : ∀ doms email date, P doms → Q date → P (addRecord doms email date))
    (hQnone : Q none) (hQpd : ∀ s t, pd s = some t → Q (some t))
    (lines : List String) (hinit : P []) :
    P (processBatch pd lines).1 := by
  unfold processBatch
  have hfold : ∀ (ls : List String) (st : ScanState), P st.domains →
      Q st.currentDate →
      P (ls.foldl (scanStep pd) st).domains ∧
      Q (ls.foldl (scanStep pd) st).currentDate := by
    intro ls
    induction ls with
    | nil => exact fun st hd hq => ⟨hd, hq⟩
    | cons line rest ih =>
      intro st hd hq
      have hstep := scanStep_inv pd P Q hP hQnone hQpd st line hd hq
      exact ih _ hstep.1 hstep.2
  have h := hfold lines initialScanState hinit hQnone
  exact flushCurrent_inv P Q hP _ h.1 h.2

theorem processBatch_WF_counts (pd : String → Option Int)
    (lines : List String) :
    WFmap (processBatch pd lines).1 ∧ countsOKmap (processBatch pd lines).1 := by
  have h := processBatch_inv pd (fun m => WFmap m ∧ countsOKmap m)
    (fun _ => True)
    (fun doms email date hm _ =>
      ⟨addRecord_WF email date hm.1, addRecord_counts email date hm.2⟩)
    trivial (fun _ _ _ => trivial) lines
    ⟨⟨List.nodup_nil, fun kv hkv => absurd hkv (List.not_mem_nil kv)⟩,
     fun kv hkv => absurd hkv (List.not_mem_nil kv)⟩
  exact h

/-! ## Count preservation through merges and the store -/

theorem sumTotals_mergeResults (A B : DomainMap) :
    sumTotals (mergeResults A B) = sumTotals A + sumTotals B := by
  unfold sumTotals mergeResults
  exact sumBy_foldMerge (fun dd => dd.totalCount) mergeDomainInto
    (fun w v => by cases w <;> rfl)
    (fun v => by simp [mergeDomainInto]) B A

theorem sumTotals_flush (A B : DomainMap) :
    sumTotals (flush A B) = sumTotals A + sumTotals B := by
  unfold sumTotals flush
  exact sumBy_foldMerge (fun dd => dd.totalCount) storeMergeDomain
    (fun w v => by cases w <;> rfl)
    (fun v => rfl) B A

theorem sumTotals_loadAll (st : DomainMap) :
    sumTotals (loadAll st) = sumTotals st := by
  unfold sumTotals sumBy loadAll
  rw [List.map_map]
  rfl

theorem senderCountSum_mDI (x : Option DomainData) (b : DomainData) :
    senderCountSum (mergeDomainInto x b) =
      (match x with | some a => senderCountSum a | none => 0) +
        senderCountSum b := by
  have key : ∀ (base : List (String × SenderData)),
      sumBy (fun sv => sv.count) (foldMerge base b.senders mergeSenderInto) =
        sumBy (fun sv => sv.count) base + sumBy (fun sv => sv.count) b.senders :=
    fun base => sumBy_foldMerge (fun sv => sv.count) mergeSenderInto
      (fun w v => by cases w <;> rfl)
      (fun v => by simp [mergeSenderInto]) b.senders base
  cases x with
  | none =>
    show sumBy (fun sv => sv.count) (foldMerge [] b.senders mergeSenderInto) = _
    rw [key []]
    rfl
  | some a =>
    show sumBy (fun sv => sv.count)
      (foldMerge a.senders b.senders mergeSenderInto) = _
    rw [key a.senders]
    rfl

theorem senderCountSum_sMD (x : Option DomainData) (b : DomainData) :
    senderCountSum (storeMergeDomain x b) =
      (match x with | some a => senderCountSum a | none => 0) +
        senderCountSum b := by
  cases x with
  | none => simp [storeMergeDomain]
  | some a =>
    show sumBy (fun sv => sv.count)
      (foldMerge a.senders b.senders storeMergeSender) = _
    rw [sumBy_foldMerge (fun sv => sv.count) storeMergeSender
      (fun w v => by cases w <;> rfl) (fun v => rfl) b.senders a.senders]
    rfl

theorem countsOKdomain_mDI {x : Option DomainData} {b : DomainData}
    (hx : ∀ a, x = some a → countsOKdomain a) (hb : countsOKdomain b) :
    countsOKdomain (mergeDomainInto x b) := by
  unfold countsOKdomain
  rw [mDI_total, senderCountSum_mDI, hb]
  cases x with
  | none => rfl
  | some a =>
    show a.totalCount + senderCountSum b = senderCountSum a + senderCountSum b
    rw [hx a rfl]

theorem countsOKdomain_sMD {x : Option DomainData} {b : DomainData}
    (hx : ∀ a, x = some a → countsOKdomain a) (hb : countsOKdomain b) :
    countsOKdomain (storeMergeDomain x b) := by
  cases x with
  | none => exact hb
  | some a =>
    unfold countsOKdomain
    rw [senderCountSum_sMD (some a) b]
    show a.totalCount + b.totalCount = senderCountSum a + senderCountSum b
    rw [hx a rfl, hb]

theorem countsOKmap_lookup {m : DomainMap} (h : countsOKmap m) {d : String}
    {dd : DomainData} (hl : lookupK m d = some dd) : countsOKdomain dd :=
  h _ (lookupK_pair_mem hl)

theorem countsOKmap_mergeResults {A B : DomainMap} (hA : WFmap A)
    (hB : WFmap B) (hcA : countsOKmap A) (hcB : countsOKmap B) :
    countsOKmap (mergeResults A B) := by
  intro kv hkv
  have hl : lookupK (mergeResults A B) kv.1 = some kv.2 :=
    lookupK_of_mem_nodup (WFmap_mergeResults hA hB).1 hkv
  rw [lookupK_mergeResults A B hB.1] at hl
  cases hBl : lookupK B kv.1 with
  | none =>
    rw [hBl] at hl
    exact countsOKmap_lookup hcA hl
  | some b =>
    rw [hBl] at hl
    simp only [optMergeDomain, Option.some.injEq] at hl
    rw [← hl]
    exact countsOKdomain_mDI (fun a ha => countsOKmap_lookup hcA ha)
      (countsOKmap_lookup hcB hBl)

theorem countsOKmap_flush {A B : DomainMap} (hA : WFmap A) (hB : WFmap B)
    (hcA : countsOKmap A) (hcB : countsOKmap B) : countsOKmap (flush A B) := by
  intro kv hkv
  have hl : lookupK (flush A B) kv.1 = some kv.2 :=
    lookupK_of_mem_nodup (WFmap_flush hA hB).1 hkv
  rw [lookupK_flush A B hB.1] at hl
  cases hBl : lookupK B kv.1 with
  | none =>
    rw [hBl] at hl
    exact countsOKmap_lookup hcA hl
  | some b =>
    rw [hBl] at hl
    simp only [Option.some.injEq] at hl
    rw [← hl]
    exact countsOKdomain_sMD (fun a ha => countsOKmap_lookup hcA ha)
      (countsOKmap_lookup hcB hBl)

theorem countsOKmap_loadAll {m : DomainMap} (h : countsOKmap m) :
    countsOKmap (loadAll m) := by
  intro kv hkv
  unfold loadAll at hkv
  rcases List.mem_map.mp hkv with ⟨kv0, hkv0, heq⟩
  have h0 := h _ hkv0
  rw [← heq]
  show countsOKdomain (loadDomain kv0.2)
  unfold countsOKdomain senderCountSum loadDomain
  dsimp only
  rw [List.map_map]
  exact h0

theorem WFmap_nil : WFmap [] :=
  ⟨List.nodup_nil, fun kv hkv => absurd hkv (List.not_mem_nil kv)⟩

theorem countsOKmap_nil : countsOKmap [] :=
  fun kv hkv => absurd hkv (List.not_mem_nil kv)

/-- The ranked output preserves the total message count. -/
theorem convert_sum (m : DomainMap) :
    ((convertToDomainGroups m).map (fun g => g.totalCount)).sum =
      sumTotals m := by
  unfold convertToDomainGroups
  have hp := sortByDesc_perm (fun g : DomainGroup => g.totalCount)
    (m.map entryToGroup)
  rw [(hp.map (fun g : DomainGroup => g.totalCount)).sum_eq, List.map_map]
  rfl

/-- Every group of the ranked output satisfies the count invariant when
the source aggregate does. -/
theorem convert_counts {m : DomainMap} (h : countsOKmap m) :
    ∀ g ∈ convertToDomainGroups m,
      g.totalCount = (g.senders.map (fun s => s.count)).sum := by
  intro g hg
  unfold convertToDomainGroups at hg
  have hp := sortByDesc_perm (fun g : DomainGroup => g.totalCount)
    (m.map entryToGroup)
  have hg' : g ∈ m.map entryToGroup := hp.mem_iff.mp hg
  rcases List.mem_map.mp hg' with ⟨kv, hkv, heq⟩
  rw [← heq]
  show kv.2.totalCount = _
  have hps := sortByDesc_perm (fun s : Sender => s.count)
    (kv.2.senders.map senderOut)
  have hsum : ((entryToGroup kv).senders.map (fun s : Sender => s.count)).sum =
      ((kv.2.senders.map senderOut).map (fun s : Sender => s.count)).sum :=
    (hps.map (fun s : Sender => s.count)).sum_eq
  rw [hsum, List.map_map]
  exact h _ hkv

/-- Loop invariant: with cancellation off and no failing flushes, the
accumulator and store stay wellformed, keep the count invariant, and
together hold exactly the matched messages of the batches consumed. -/
theorem spillLoop_sum (cfg : RunConfig) (pd : String → Option Int)
    (hcan : cfg.cancelAt = none) (hff : cfg.failFlushes = []) :
    ∀ (batches : List (List String)) (i fc : Nat) (acc store : DomainMap),
      WFmap acc → WFmap store → countsOKmap acc → countsOKmap store →
      ∀ acc' store' fc',
        spillLoop cfg pd batches i fc acc store =
          LoopOut.finished acc' store' fc' →
        WFmap acc' ∧ WFmap store' ∧ countsOKmap acc' ∧ countsOKmap store' ∧
        sumTotals acc' + sumTotals store' =
          sumTotals acc + sumTotals store +
            (batches.map matchedMessages).sum := by
  intro batches
  induction batches with
  | nil =>
    intro i fc acc store hWa hWs hca hcs acc' store' fc' h
    have h' : LoopOut.finished acc store fc =
        LoopOut.finished acc' store' fc' := h
    injection h' with h1 h2 h3
    subst h1
    subst h2
    exact ⟨hWa, hWs, hca, hcs, by simp⟩
  | cons lines rest ih =>
    intro i fc acc store hWa hWs hca hcs acc' store' fc' h
    have hobs : cancelObserved cfg i = false := by
      unfold cancelObserved
      rw [hcan]
    unfold spillLoop at h
    rw [hobs] at h
    simp only [Bool.false_eq_true, if_false] at h
    rw [hff, if_neg (List.not_mem_nil fc)] at h
    have hWB := (processBatch_WF_counts pd lines).1
    have hcB := (processBatch_WF_counts pd lines).2
    have hWA1 : WFmap (mergeResults acc (processBatch pd lines).1) :=
      WFmap_mergeResults hWa hWB
    have hcA1 : countsOKmap (mergeResults acc (processBatch pd lines).1) :=
      countsOKmap_mergeResults hWa hWB hca hcB
    have hsA1 : sumTotals (mergeResults acc (processBatch pd lines).1) =
        sumTotals acc + matchedMessages lines := by
      rw [sumTotals_mergeResults, processBatch_sum]
    split at h
    · have hres := ih (i + 1) (fc + 1) []
        (flush store (mergeResults acc (processBatch pd lines).1))
        WFmap_nil (WFmap_flush hWs hWA1) countsOKmap_nil
        (countsOKmap_flush hWs hWA1 hcs hcA1) acc' store' fc' h
      refine ⟨hres.1, hres.2.1, hres.2.2.1, hres.2.2.2.1, ?_⟩
      have hsum := hres.2.2.2.2
      rw [sumTotals_flush] at hsum
      have hnil : sumTotals ([] : DomainMap) = 0 := rfl
      rw [hnil, hsA1] at hsum
      simp only [List.map_cons, List.sum_cons]
      omega
    · have hres := ih (i + 1) fc
        (mergeResults acc (processBatch pd lines).1) store
        hWA1 hWs hcA1 hcs acc' store' fc' h
      refine ⟨hres.1, hres.2.1, hres.2.2.1, hres.2.2.2.1, ?_⟩
      have hsum := hres.2.2.2.2
      rw [hsA1] at hsum
      simp only [List.map_cons, List.sum_cons]
      omega


/-- Run-level count conservation: with cancellation off and no failing
flushes, the run returns groups whose per-group counts are consistent
and whose grand total is the number of domain-matched messages. -/
theorem process_counts (cfg : RunConfig) (pd : String → Option Int)
    (hcan : cfg.cancelAt = none) (hff : cfg.failFlushes = [])
    (batches : List (List String)) :
    ∃ gs, (process cfg pd [] batches).output = Except.ok gs ∧
      (∀ g ∈ gs, g.totalCount = (g.senders.map (fun s => s.count)).sum) ∧
      (gs.map (fun g => g.totalCount)).sum =
        (batches.map matchedMessages).sum := by
  obtain ⟨acc', store', fc', hrun⟩ :=
    spillLoop_finishes cfg pd hcan batches 0 0 [] []
  have hinv := spillLoop_sum cfg pd hcan hff batches 0 0 [] []
    WFmap_nil WFmap_nil countsOKmap_nil countsOKmap_nil acc' store' fc' hrun
  have hnil : sumTotals ([] : DomainMap) = 0 := rfl
  unfold process
  rw [hrun]
  dsimp only
  by_cases hlen : acc'.length ≠ 0
  · rw [if_pos hlen, hff, if_neg (List.not_mem_nil fc')]
    refine ⟨_, rfl, ?_, ?_⟩
    · exact convert_counts (countsOKmap_loadAll
        (countsOKmap_flush hinv.2.1 hinv.1 hinv.2.2.2.1 hinv.2.2.1))
    · rw [convert_sum, sumTotals_loadAll, sumTotals_flush]
      have hs := hinv.2.2.2.2
      rw [hnil] at hs
      omega
  · rw [if_neg hlen]
    refine ⟨_, rfl, ?_, ?_⟩
    · exact convert_counts (countsOKmap_loadAll hinv.2.2.2.1)
    · rw [convert_sum, sumTotals_loadAll]
      have hzero : sumTotals acc' = 0 := by
        have he : acc' = [] := List.length_eq_zero.mp (not_ne_iff.mp hlen)
        rw [he]
        exact hnil
      have hs := hinv.2.2.2.2
      rw [hnil] at hs
      omega


/-- C3: count conservation.  Every aggregate the pipeline constructs —
after each added record, after every in-memory merge, after every
store merge and read-back — keeps `totalCount` equal to the sum of its
senders' counts, and the final output's grand total equals the number
of messages whose `From:` value matched the domain pattern (an `@`
followed by a non-whitespace, non-`>` character) — NOT the number of
addresses merely containing `@`, as the spec words it. -/
theorem c3_count_conservation :
    (∀ (doms : DomainMap) (email : String) (date : Option Int),
        countsOKmap doms → countsOKmap (addRecord doms email date)) ∧
    (∀ A B : DomainMap, WFmap A → WFmap B → countsOKmap A → countsOKmap B →
        countsOKmap (mergeResults A B)) ∧
    (∀ A B : DomainMap, WFmap A → WFmap B → countsOKmap A → countsOKmap B →
        countsOKmap (flush A B)) ∧
    (∀ m : DomainMap, countsOKmap m → countsOKmap (loadAll m)) ∧
    (∀ (cfg : RunConfig) (pd : String → Option Int)
        (batches : List (List String)),
        cfg.cancelAt = none → cfg.failFlushes = [] →
        ∃ gs, (process cfg pd [] batches).output = Except.ok gs ∧
          (∀ g ∈ gs, g.totalCount = (g.senders.map (fun s => s.count)).sum) ∧
          (gs.map (fun g => g.totalCount)).sum =
            (batches.map matchedMessages).sum) :=
  ⟨fun _ email date h => addRecord_counts email date h,
   fun _ _ hA hB hcA hcB => countsOKmap_mergeResults hA hB hcA hcB,
   fun _ _ hA hB hcA hcB => countsOKmap_flush hA hB hcA hcB,
   fun _ h => countsOKmap_loadAll h,
   fun cfg pd batches hcan hff => process_counts cfg pd hcan hff batches⟩

/-- C3 counterexample: the message `From: <a@>` yields the captured
address `a@`, which contains `@`, yet the run records nothing — the
regex needs a character after the `@` — so the output's grand total
(0) differs from the number of messages whose address contains `@`
(1). -/
theorem c3_counterexample :
    (process { } (fun _ => none) [] [["From a", "From: <a@>"]]).output =
      Except.ok [] ∧
    capturedFroms ["From a", "From: <a@>"] = ["a@"] ∧
    ("a@".data.any (fun c => c = Char.ofNat 64)) = true ∧
    matchedMessages ["From a", "From: <a@>"] = 0 :=
  ⟨rfl, rfl, by decide, rfl⟩

theorem c3_witness :
    ∃ gs, (process { } (fun _ => none) []
        [["From a", "From: <x@y.com>"]]).output = Except.ok gs ∧
      (∀ g ∈ gs, g.totalCount = (g.senders.map (fun s => s.count)).sum) ∧
      (gs.map (fun g => g.totalCount)).sum =
        ([["From a", "From: <x@y.com>"]].map matchedMessages).sum :=
  c3_count_conservation.2.2.2.2 { } (fun _ => none)
    [["From a", "From: <x@y.com>"]] rfl rfl


/-! ## Spill invariance machinery (claim C2) -/

theorem mergeDomainInto_congr (x y : Option DomainData) (c : DomainData)
    (hcW : WFdomain c)
    (hf : x.map domFields = y.map domFields)
    (hs : ∀ e, x.bind (fun dd => lookupK dd.senders e) =
      y.bind (fun dd => lookupK dd.senders e)) :
    domFields (mergeDomainInto x c) = domFields (mergeDomainInto y c) ∧
    ∀ e, lookupK (mergeDomainInto x c).senders e =
      lookupK (mergeDomainInto y c).senders e := by
  constructor
  · unfold domFields
    rw [mDI_total, mDI_total, mDI_earliest, mDI_earliest, mDI_latest,
      mDI_latest]
    cases x with
    | none =>
      cases y with
      | none => rfl
      | some a => simp at hf
    | some a =>
      cases y with
      | none => simp at hf
      | some a' =>
        simp only [Option.map_some', Option.some.injEq] at hf
        have ht : a.totalCount = a'.totalCount := congrArg Prod.fst hf
        have he : a.earliestDate = a'.earliestDate :=
          congrArg (fun p => p.2.1) hf
        have hl : a.latestDate = a'.latestDate := congrArg (fun p => p.2.2) hf
        show (a.totalCount + c.totalCount,
            memEarliest a.earliestDate c.earliestDate,
            memLatest a.latestDate c.latestDate) = _
        rw [ht, he, hl]
        rfl
  · intro e
    rw [mDI_senders x c hcW e, mDI_senders y c hcW e]
    have hbs : baseSenders x e = baseSenders y e := by
      have h := hs e
      cases x <;> cases y <;> simpa [baseSenders] using h
    rw [hbs]

theorem mergeResults_congr_left {X Y : DomainMap} (C : DomainMap)
    (hC : WFmap C) (h : aggEquiv X Y) :
    aggEquiv (mergeResults X C) (mergeResults Y C) := by
  intro d
  obtain ⟨hf, hs⟩ := h d
  cases hCl : lookupK C d with
  | none =>
    have h1 : lookupK (mergeResults X C) d = lookupK X d := by
      rw [lookupK_mergeResults X C hC.1, hCl]
      rfl
    have h2 : lookupK (mergeResults Y C) d = lookupK Y d := by
      rw [lookupK_mergeResults Y C hC.1, hCl]
      rfl
    exact ⟨by rw [h1, h2]; exact hf,
      fun e => by unfold senderAt; rw [h1, h2]; exact hs e⟩
  | some c =>
    have h1 : lookupK (mergeResults X C) d =
        some (mergeDomainInto (lookupK X d) c) := by
      rw [lookupK_mergeResults X C hC.1, hCl]
      rfl
    have h2 : lookupK (mergeResults Y C) d =
        some (mergeDomainInto (lookupK Y d) c) := by
      rw [lookupK_mergeResults Y C hC.1, hCl]
      rfl
    have hcong := mergeDomainInto_congr (lookupK X d) (lookupK Y d) c
      (WFmap_lookup hC hCl) hf (fun e => hs e)
    constructor
    · rw [h1, h2]
      show some (domFields (mergeDomainInto (lookupK X d) c)) =
        some (domFields (mergeDomainInto (lookupK Y d) c))
      rw [hcong.1]
    · intro e
      unfold senderAt
      rw [h1, h2]
      exact hcong.2 e

theorem addRecord_zf {doms : DomainMap} (email : String) (date : Option Int)
    (hdate : zfTs date) (h : zfMap doms) :
    zfMap (addRecord doms email date) := by
  unfold addRecord
  cases hdom : domainOfEmail email with
  | none => exact h
  | some fd =>
    dsimp only
    intro kv hkv
    rcases mem_setK hkv with hm | hm
    · exact h _ hm
    · have hdg : zfDomain ((lookupK doms fd).getD
          { totalCount := 0, senders := []
            isPersonal := PERSONAL_DOMAINS.contains fd }) := by
        cases hl : lookupK doms fd with
        | none =>
          refine ⟨by simp [zfTs], by simp [zfTs], ?_⟩
          intro kv2 hkv2
          exact absurd hkv2 (List.not_mem_nil kv2)
        | some w => exact h _ (lookupK_pair_mem hl)
      rw [hm]
      show zfDomain _
      unfold zfDomain
      dsimp only
      refine ⟨?_, ?_, ?_⟩
      · cases date with
        | none => exact hdg.1
        | some t => exact zfTs_memEarliest hdg.1 hdate
      · cases date with
        | none => exact hdg.2.1
        | some t => exact zfTs_memLatest hdg.2.1 hdate
      · intro kv2 hkv2
        rcases mem_setK hkv2 with hm2 | hm2
        · exact hdg.2.2 _ hm2
        · rw [hm2]
          show zfSender _
          have hs0 : zfSender ((lookupK ((lookupK doms fd).getD
              { totalCount := 0, senders := []
                isPersonal := PERSONAL_DOMAINS.contains fd }).senders
                email).getD { count := 0 }) := by
            cases hl2 : lookupK ((lookupK doms fd).getD
                { totalCount := 0, senders := []
                  isPersonal := PERSONAL_DOMAINS.contains fd }).senders
                email with
            | none => exact ⟨by simp [zfTs], by simp [zfTs]⟩
            | some sv => exact zfDomain_lookup hdg hl2
          unfold zfSender
          cases date with
          | none => exact ⟨hs0.1, hs0.2⟩
          | some t =>
            exact ⟨zfTs_memEarliest hs0.1 hdate, zfTs_memLatest hs0.2 hdate⟩

theorem zfMap_nil : zfMap [] :=
  fun kv hkv => absurd hkv (List.not_mem_nil kv)

/-- A parser that never produces the epoch keeps the scanner's output
zero-free. -/
theorem processBatch_zf (pd : String → Option Int)
    (hpd : ∀ s, pd s ≠ some 0) (lines : List String) :
    zfMap (processBatch pd lines).1 :=
  processBatch_inv pd zfMap zfTs
    (fun _ email date hm hq => addRecord_zf email date hq hm)
    (by simp [zfTs])
    (fun s t h => by
      have := hpd s
      rw [h] at this
      simpa [zfTs] using this)
    lines zfMap_nil


theorem loadTs_eq_self {o : Option Int} (h : zfTs o) : loadTs o = o := by
  cases o with
  | none => rfl
  | some t =>
    show (if t = 0 then none else some t) = some t
    rw [if_neg]
    intro ht
    exact h (by rw [ht])

theorem loadSender_eq_self {sv : SenderData} (h : zfSender sv) :
    loadSender sv = sv := by
  obtain ⟨c, e, l⟩ := sv
  unfold loadSender
  rw [loadTs_eq_self h.1, loadTs_eq_self h.2]

theorem loadSenders_eq_self : ∀ (l : List (String × SenderData)),
    (∀ kv ∈ l, zfSender kv.2) →
    l.map (fun kv => (kv.1, loadSender kv.2)) = l := by
  intro l
  induction l with
  | nil => intro _; rfl
  | cons hd t ih =>
    intro h
    rw [List.map_cons, ih (fun kv hkv => h kv (List.mem_cons_of_mem hd hkv)),
      loadSender_eq_self (h hd (List.mem_cons_self hd t))]

theorem loadDomain_eq_self {d : DomainData} (h : zfDomain d) :
    loadDomain d = d := by
  obtain ⟨tc, sen, ip, ed, ld⟩ := d
  unfold loadDomain
  rw [loadTs_eq_self h.1, loadTs_eq_self h.2.1]
  have hsen := loadSenders_eq_self sen h.2.2
  dsimp only at hsen ⊢
  rw [hsen]

/-- With no epoch timestamps, the store read-back is the identity. -/
theorem loadAll_eq_self : ∀ {m : DomainMap}, zfMap m → loadAll m = m := by
  intro m
  induction m with
  | nil => intro _; rfl
  | cons hd t ih =>
    intro h
    show (hd.1, loadDomain hd.2) ::
      t.map (fun kv => (kv.1, loadDomain kv.2)) = hd :: t
    have ht := ih (fun kv hkv => h kv (List.mem_cons_of_mem hd hkv))
    have hth : t.map (fun kv => (kv.1, loadDomain kv.2)) = t := ht
    rw [hth, loadDomain_eq_self (h hd (List.mem_cons_self hd t))]

/-- The canonical unspilled aggregate of a batch list. -/
def batchFold (pd : String → Option Int) (batches : List (List String)) :
    DomainMap :=
  batches.foldl (fun acc lines => mergeResults acc (processBatch pd lines).1) []

/-- Loop invariant: with cancellation off, no failing flushes and no
epoch dates, the store-and-accumulator pair stays (field-by-field)
equivalent to the canonical in-memory fold, whatever the thresholds. -/
theorem spillLoop_equiv (cfg : RunConfig) (pd : String → Option Int)
    (hcan : cfg.cancelAt = none) (hff : cfg.failFlushes = [])
    (hpd : ∀ s, pd s ≠ some 0) :
    ∀ (batches : List (List String)) (i fc : Nat) (acc store sem : DomainMap),
      WFmap acc → WFmap store → zfMap acc → zfMap store →
      WFmap sem → zfMap sem →
      aggEquiv (flush store acc) sem →
      ∀ acc' store' fc',
        spillLoop cfg pd batches i fc acc store =
          LoopOut.finished acc' store' fc' →
        WFmap acc' ∧ WFmap store' ∧ zfMap acc' ∧ zfMap store' ∧
        aggEquiv (flush store' acc')
          (batches.foldl (fun m lines =>
            mergeResults m (processBatch pd lines).1) sem) := by
  intro batches
  induction batches with
  | nil =>
    intro i fc acc store sem hWa hWs hza hzs hWm hzm hinv acc' store' fc' h
    have h' : LoopOut.finished acc store fc =
        LoopOut.finished acc' store' fc' := h
    injection h' with h1 h2 h3
    subst h1
    subst h2
    exact ⟨hWa, hWs, hza, hzs, hinv⟩
  | cons lines rest ih =>
    intro i fc acc store sem hWa hWs hza hzs hWm hzm hinv acc' store' fc' h
    have hobs : cancelObserved cfg i = false := by
      unfold cancelObserved
      rw [hcan]
    unfold spillLoop at h
    rw [hobs] at h
    simp only [Bool.false_eq_true, if_false] at h
    rw [hff, if_neg (List.not_mem_nil fc)] at h
    have hWB := (processBatch_WF_counts pd lines).1
    have hzB := processBatch_zf pd hpd lines
    have hWa1 : WFmap (mergeResults acc (processBatch pd lines).1) :=
      WFmap_mergeResults hWa hWB
    have hza1 : zfMap (mergeResults acc (processBatch pd lines).1) :=
      zfMap_mergeResults hWa hWB hza hzB
    have hWm1 : WFmap (mergeResults sem (processBatch pd lines).1) :=
      WFmap_mergeResults hWm hWB
    have hzm1 : zfMap (mergeResults sem (processBatch pd lines).1) :=
      zfMap_mergeResults hWm hWB hzm hzB
    have hstep : aggEquiv
        (flush store (mergeResults acc (processBatch pd lines).1))
        (mergeResults sem (processBatch pd lines).1) := by
      have s1 := flush_equiv_merge hWs hWa1 hzs hza1
      have s2 := aggEquiv_symm (mergeResults_assoc hWs hWa hWB)
      have s3 := mergeResults_congr_left (processBatch pd lines).1 hWB
        (aggEquiv_symm (flush_equiv_merge hWs hWa hzs hza))
      have s4 := mergeResults_congr_left (processBatch pd lines).1 hWB hinv
      exact aggEquiv_trans s1 (aggEquiv_trans s2 (aggEquiv_trans s3 s4))
    split at h
    · exact ih (i + 1) (fc + 1) []
        (flush store (mergeResults acc (processBatch pd lines).1))
        (mergeResults sem (processBatch pd lines).1)
        WFmap_nil (WFmap_flush hWs hWa1) zfMap_nil
        (zfMap_flush hWs hWa1 hzs hza1) hWm1 hzm1 hstep acc' store' fc' h
    · exact ih (i + 1) fc
        (mergeResults acc (processBatch pd lines).1) store
        (mergeResults sem (processBatch pd lines).1)
        hWa1 hWs hza1 hzs hWm1 hzm1 hstep acc' store' fc' h


/-- A cancel-free, flush-safe, epoch-free run returns the conversion of
a map equivalent to the canonical unspilled fold. -/
theorem process_run_equiv (cfg : RunConfig) (pd : String → Option Int)
    (hcan : cfg.cancelAt = none) (hff : cfg.failFlushes = [])
    (hpd : ∀ s, pd s ≠ some 0) (batches : List (List String)) :
    ∃ M, (process cfg pd [] batches).output =
        Except.ok (convertToDomainGroups M) ∧
      WFmap M ∧ aggEquiv M (batchFold pd batches) := by
  obtain ⟨acc', store', fc', hrun⟩ :=
    spillLoop_finishes cfg pd hcan batches 0 0 [] []
  have hinv := spillLoop_equiv cfg pd hcan hff hpd batches 0 0 [] [] []
    WFmap_nil WFmap_nil zfMap_nil zfMap_nil WFmap_nil zfMap_nil
    (aggEquiv_refl []) acc' store' fc' hrun
  obtain ⟨hWa, hWs, hza, hzs, heq⟩ := hinv
  unfold process
  rw [hrun]
  dsimp only
  by_cases hlen : acc'.length ≠ 0
  · rw [if_pos hlen, hff, if_neg (List.not_mem_nil fc')]
    refine ⟨flush store' acc', ?_, WFmap_flush hWs hWa, heq⟩
    show Except.ok (convertToDomainGroups (loadAll (flush store' acc'))) = _
    rw [loadAll_eq_self (zfMap_flush hWs hWa hzs hza)]
  · rw [if_neg hlen]
    have he : acc' = [] := List.length_eq_zero.mp (not_ne_iff.mp hlen)
    subst he
    refine ⟨store', ?_, hWs, heq⟩
    show Except.ok (convertToDomainGroups (loadAll store')) = _
    rw [loadAll_eq_self hzs]

/-- The §6 comparison of ranked outputs: groups retrieved by domain and
senders by email, compared on the law's fields, ignoring order. -/
def groupFields (g : DomainGroup) : Nat × Option Int × Option Int :=
  (g.totalCount, g.earliestDate, g.latestDate)

def senderView (sv : Sender) : Nat × Option Int := (sv.count, sv.lastEmailDate)

def RankedEquiv (gs hs : List DomainGroup) : Prop :=
  ∀ d, ((gs.find? (fun g => decide (g.domain = d))).map groupFields =
      (hs.find? (fun g => decide (g.domain = d))).map groupFields) ∧
    ∀ e, ((gs.find? (fun g => decide (g.domain = d))).bind
        (fun g => g.senders.find? (fun sv => decide (sv.email = e)))).map
          senderView =
      ((hs.find? (fun g => decide (g.domain = d))).bind
        (fun g => g.senders.find? (fun sv => decide (sv.email = e)))).map
          senderView

/-- Equivalent aggregates convert to rank-equivalent outputs. -/
theorem convert_rankedEquiv {A B : DomainMap} (hA : WFmap A) (hB : WFmap B)
    (h : aggEquiv A B) :
    RankedEquiv (convertToDomainGroups A) (convertToDomainGroups B) := by
  intro d
  obtain ⟨hf, hs⟩ := h d
  have hfa := find?_convert A hA d
  have hfb := find?_convert B hB d
  constructor
  · rw [hfa, hfb, Option.map_map, Option.map_map]
    exact hf
  · intro e
    rw [hfa, hfb]
    cases hAl : lookupK A d with
    | none =>
      cases hBl : lookupK B d with
      | none => rfl
      | some b =>
        rw [hAl, hBl] at hf
        simp at hf
    | some a =>
      cases hBl : lookupK B d with
      | none =>
        rw [hAl, hBl] at hf
        simp at hf
      | some b =>
        show ((entryToGroup (d, a)).senders.find?
            (fun sv => decide (sv.email = e))).map senderView =
          ((entryToGroup (d, b)).senders.find?
            (fun sv => decide (sv.email = e))).map senderView
        have hsa : (entryToGroup (d, a)).senders =
            sortByDesc (fun sv : Sender => sv.count)
              (a.senders.map senderOut) := rfl
        have hsb : (entryToGroup (d, b)).senders =
            sortByDesc (fun sv : Sender => sv.count)
              (b.senders.map senderOut) := rfl
        rw [hsa, hsb, find?_senders a (WFmap_lookup hA hAl) e,
          find?_senders b (WFmap_lookup hB hBl) e]
        have hse : lookupK a.senders e = lookupK b.senders e := by
          have h2 := hs e
          unfold senderAt at h2
          rw [hAl, hBl] at h2
          simpa using h2
        rw [hse]


/-! ## Claim C2 -/

/-- C2: spill invariance.  For cancel-free runs with no flush failures
whose parsed dates are never the epoch (`new Date(0)` serializes to the
falsy `0`), any two threshold configurations — in particular one that
never spills and one that spills on every batch — produce
rank-equivalent outputs: same domains, same totals and date bounds,
same per-sender counts and last-seen dates, order ignored. -/
theorem c2_spill_invariance (cfg1 cfg2 : RunConfig)
    (pd : String → Option Int) (batches : List (List String))
    (h1c : cfg1.cancelAt = none) (h1f : cfg1.failFlushes = [])
    (h2c : cfg2.cancelAt = none) (h2f : cfg2.failFlushes = [])
    (hpd : ∀ s, pd s ≠ some 0) :
    ∃ gs1 gs2,
      (process cfg1 pd [] batches).output = Except.ok gs1 ∧
      (process cfg2 pd [] batches).output = Except.ok gs2 ∧
      RankedEquiv gs1 gs2 := by
  obtain ⟨M1, ho1, hW1, he1⟩ := process_run_equiv cfg1 pd h1c h1f hpd batches
  obtain ⟨M2, ho2, hW2, he2⟩ := process_run_equiv cfg2 pd h2c h2f hpd batches
  exact ⟨_, _, ho1, ho2, convert_rankedEquiv hW1 hW2
    (aggEquiv_trans he1 (aggEquiv_symm he2))⟩

/-- A date parser hitting the epoch: the serialized timestamp `0` is
falsy in the store's merge guards. -/
def pdCx (s : String) : Option Int :=
  if s = "Thu, 01 Jan 1970 00:00:00 GMT" then some 0
  else if s = "Wed, 31 Dec 1969 00:00:00 GMT" then some (-86400000) else none

def cxBatches : List (List String) :=
  [["From a", "From: <a@x.com>", "Date: Thu, 01 Jan 1970 00:00:00 GMT"],
   ["From a", "From: <a@x.com>", "Date: Wed, 31 Dec 1969 00:00:00 GMT"]]

def c2Gs1 : List DomainGroup :=
  [{ domain := "x.com", totalCount := 2
     senders := [{ email := "a@x.com", count := 2, lastEmailDate := none }]
     isPersonal := false
     earliestDate := some (-86400000)
     latestDate := none }]

def c2Gs2 : List DomainGroup :=
  [{ domain := "x.com", totalCount := 2
     senders := [{ email := "a@x.com", count := 2
                   lastEmailDate := some (-86400000) }]
     isPersonal := false
     earliestDate := some (-86400000)
     latestDate := some (-86400000) }]

/-- C2 (counterexample): with a message dated at the epoch, the
unspilled run and the spill-every-batch run disagree — the spilled
run's store merge treats the serialized `0` as absent and the later
date survives, while the unspilled run keeps the epoch in memory and
then loses it at read-back — so spill granularity does change the
final value. -/
theorem c2_counterexample :
    (process { } pdCx [] cxBatches).output = Except.ok c2Gs1 ∧
    (process { maxAccumulatedDomains := 1 } pdCx [] cxBatches).output =
      Except.ok c2Gs2 ∧
    ¬ RankedEquiv c2Gs1 c2Gs2 :=
  ⟨rfl, rfl, fun hR => absurd (hR "x.com").1 (by decide)⟩

/-- C2 (witness): the invariance theorem applied to a concrete source,
comparing the default thresholds with a configuration spilling after
every batch. -/
theorem c2_witness :
    ∃ gs1 gs2,
      (process { } (fun _ => none) []
        [["From a", "From: <x@y.com>"]]).output = Except.ok gs1 ∧
      (process { maxAccumulatedDomains := 1 } (fun _ => none) []
        [["From a", "From: <x@y.com>"]]).output = Except.ok gs2 ∧
      RankedEquiv gs1 gs2 :=
  c2_spill_invariance { } { maxAccumulatedDomains := 1 } (fun _ => none)
    [["From a", "From: <x@y.com>"]] rfl rfl rfl rfl
    (fun s h => Option.noConfusion h)


end Mbox
